import Mathlib

/-
Verification of the skeleton-healing core of neuprint-python
(`neuprint/utils.py`: `skeleton_df_to_nx`, `heal_skeleton`).

Modelling conventions:
* A skeleton DataFrame row is a `Node` record; a DataFrame is a `List Node`
  in row order.
* Coordinates and radii are modelled as integers; the Euclidean distances
  used by the KD-tree queries and the MST are modelled by the *squared*
  Euclidean distance (a `Nat`).  Squaring is strictly monotone on
  non-negative reals, so every comparison, `argmin` and sort performed by
  the source on true distances coincides with the one performed here on
  squared distances.
* `pandas.sort_values` is modelled with a stable insertion sort
  (row order among equal keys is only observable for duplicate ids).
* `scipy.spatial.cKDTree.query` returns, for each query point, the
  minimal distance to the data set and an index achieving it; the
  tie-break among equidistant data points is implementation defined in
  scipy and is modelled as the first index in row order (`np.argmin`
  likewise returns the first minimising index, which is exact).
* `networkx` graphs are modelled by explicit vertex and edge lists that
  track insertion order; `nx.minimum_spanning_edges` (Kruskal) is a
  stable sort by weight followed by the union-find accept/reject loop;
  `nx.dfs_edges` is a stack-based depth-first traversal emitting
  (parent, child) tree edges.
* A raised Python exception (IndexError at `iloc[0]` on an empty frame,
  AssertionError at the final asserts) is modelled by `Except.error`.
-/

namespace NeuPrint

/-- One row of a skeleton DataFrame: columns rowId, x, y, z, radius, link. -/
structure Node where
  rowId : Int
  x : Int
  y : Int
  z : Int
  radius : Int
  link : Int
deriving Repr, DecidableEq, Inhabited

/-- The row ids of a skeleton DataFrame, in row order. -/
def nodeIds (df : List Node) : List Int := df.map (·.rowId)

/-- `skeleton_df.sort_values('rowId')`. -/
def sortSkeleton (df : List Node) : List Node :=
  List.insertionSort (fun a b => a.rowId ≤ b.rowId) df

/-- `df[['rowId','link']].sort_values(['rowId','link'])` in `skeleton_df_to_nx`. -/
def sortByIdLink (df : List Node) : List Node :=
  List.insertionSort
    (fun a b => a.rowId < b.rowId ∨ (a.rowId = b.rowId ∧ a.link ≤ b.link)) df

/-- Edge list of `skeleton_df_to_nx(df, with_attributes=False)`:
`g.add_edges_from(df.query('link != -1').values)`, each row contributing
the pair (rowId, link). -/
def nxEdges (df : List Node) : List (Int × Int) :=
  (sortByIdLink df).filterMap
    (fun r => if r.link = -1 then none else some (r.rowId, r.link))

/-- Keep the first occurrence of every element (insertion-order dedup,
as a networkx node dict does). -/
def firstDedup (l : List Int) : List Int :=
  l.foldl (fun acc x => if x ∈ acc then acc else acc ++ [x]) []

/-- Vertex list of `skeleton_df_to_nx(df, with_attributes=False)`:
`add_nodes_from(df['rowId'].sort_values())` followed by the endpoints of
every edge (`add_edges_from` inserts unseen endpoints, e.g. a link value
absent from the rowId column). -/
def nxNodes (df : List Node) : List Int :=
  (nxEdges df).foldl
    (fun acc e =>
      let acc1 := if e.1 ∈ acc then acc else acc ++ [e.1]
      if e.2 ∈ acc1 then acc1 else acc1 ++ [e.2])
    (firstDedup (List.insertionSort (fun a b => a ≤ b) (df.map (·.rowId))))

/-! ### Connected components (union by relabelling)

`nx.connected_components` is modelled by a label map: every vertex is
mapped to a class representative, and each edge merges the two classes of
its endpoints.  Two vertices are in one component iff their labels agree. -/

/-- Association list from vertex to component label. -/
abbrev LabelMap := List (Int × Int)

/-- Label of `v` in `m` (default: `v` itself). -/
def lookupLab (m : LabelMap) (v : Int) : Int :=
  match m.find? (fun p => p.1 == v) with
  | some p => p.2
  | none => v

/-- Replace every label `lb` by `la`. -/
def relabelAll (m : LabelMap) (la lb : Int) : LabelMap :=
  m.map (fun p => if p.2 = lb then (p.1, la) else p)

/-- Merge the classes of the two endpoints of an edge. -/
def unionEdge (m : LabelMap) (e : Int × Int) : LabelMap :=
  relabelAll m (lookupLab m e.1) (lookupLab m e.2)

/-- Initial map: every vertex its own class. -/
def initLabels (V : List Int) : LabelMap := V.map (fun v => (v, v))

/-- Label map of the graph (V, E). -/
def compMap (V : List Int) (E : List (Int × Int)) : LabelMap :=
  E.foldl unionEdge (initLabels V)

/-- The connected components of (V, E), each a sublist of V, listed in
order of their first member in V (networkx discovery order). -/
def componentsOf (V : List Int) (E : List (Int × Int)) : List (List Int) :=
  let m := compMap V E
  (firstDedup (m.map (·.2))).map (fun l => V.filter (fun v => lookupLab m v = l))

/-- Number of connected components of (V, E). -/
def numComps (V : List Int) (E : List (Int × Int)) : Nat :=
  ((compMap V E).map (·.2)).toFinset.card

/-! ### Undirected connectivity (specification side) -/

/-- `a` and `b` are the two endpoints of some listed edge. -/
def adjIn (E : List (Int × Int)) (a b : Int) : Prop :=
  (a, b) ∈ E ∨ (b, a) ∈ E

/-- Undirected reachability over an edge list. -/
inductive Conn (E : List (Int × Int)) : Int → Int → Prop where
  | refl (a : Int) : Conn E a a
  | tail {a b c : Int} : Conn E a b → adjIn E b c → Conn E a c

/-! ### Fragments and nearest-neighbour stitching -/

/-- `skeleton_df.query('rowId in @cc')` for each component. -/
def fragsOf (df : List Node) (comps : List (List Int)) : List (List Node) :=
  comps.map (fun c => df.filter (fun r => r.rowId ∈ c))

/-- `sorted(ccs, key=lambda cc: -len(cc.df))` (stable, big to small). -/
def sortFragsDesc (fs : List (List Node)) : List (List Node) :=
  List.insertionSort (fun a b => b.length ≤ a.length) fs

/-- `itertools.combinations(l, 2)` in order. -/
def combPairs : List α → List (α × α)
  | [] => []
  | x :: xs => xs.map (fun y => (x, y)) ++ combPairs xs

/-- Squared Euclidean distance between two skeleton points. -/
def dist2 (p q : Node) : Nat :=
  ((p.x - q.x) ^ 2 + (p.y - q.y) ^ 2 + (p.z - q.z) ^ 2).toNat

/-- Minimum of a list of naturals (0 for the empty list). -/
def listMin : List Nat → Nat
  | [] => 0
  | x :: xs => xs.foldl min x

/-- Index of the first minimal entry (`np.argmin`). -/
def argmin (l : List Nat) : Nat := l.findIdx (fun d => d == listMin l)

/-- One candidate stitch for the fragment pair (A, B):
`distances, indexes = cc_a.kd.query(coords_b)` gives each B row its
nearest A row; `index_b = argmin(distances)`, `index_a = indexes[index_b]`;
the edge ((node_a, node_b), distance) is returned. -/
def stitchPair (A B : List Node) : (Int × Int) × Nat :=
  let dists := B.map (fun b => listMin (A.map (fun a => dist2 b a)))
  let j := argmin dists
  let b := B.getD j default
  let da := A.map (fun a => dist2 b a)
  let i := argmin da
  ((((A.getD i default).rowId, b.rowId)), listMin da)

/-- All candidate stitches, one per unordered fragment pair. -/
def stitchesOf (frs : List (List Node)) : List ((Int × Int) × Nat) :=
  (combPairs frs).map (fun p => stitchPair p.1 p.2)

/-! ### Kruskal (nx.minimum_spanning_edges) -/

/-- Kruskal accept/reject loop over a weight-sorted edge list, returning
the final union-find state and the accepted edges. -/
def kruskalGo : List ((Int × Int) × Nat) → LabelMap → List (Int × Int) →
    LabelMap × List (Int × Int)
  | [], m, acc => (m, acc)
  | (e, _) :: rest, m, acc =>
    if lookupLab m e.1 = lookupLab m e.2 then kruskalGo rest m acc
    else kruskalGo rest (unionEdge m e) (acc ++ [e])

/-- Accepted edge list of Kruskal's algorithm (the edges of the MST, in
acceptance order). -/
def kruskal (V : List Int) (wes : List ((Int × Int) × Nat)) : List (Int × Int) :=
  (kruskalGo wes (initLabels V) []).2

/-! ### Depth-first traversal (nx.dfs_edges) -/

/-- Neighbours of `u` in edge list `M`, in edge-insertion order
(the networkx adjacency order). -/
def neighborsIn (M : List (Int × Int)) (u : Int) : List Int :=
  M.filterMap (fun e =>
    if e.1 = u then some e.2 else if e.2 = u then some e.1 else none)

/-- Fuel-bounded DFS work loop.  The stack holds (parent, node) entries;
visiting a new node records the tree edge (parent, node) and pushes its
neighbours. -/
def dfsLoop (M : List (Int × Int)) :
    Nat → List (Int × Int) → List Int → List (Int × Int) → List Int × List (Int × Int)
  | 0, _, vis, acc => (vis, acc)
  | _ + 1, [], vis, acc => (vis, acc)
  | fuel + 1, (p, u) :: rest, vis, acc =>
    if u ∈ vis then dfsLoop M fuel rest vis acc
    else dfsLoop M fuel ((neighborsIn M u).map (fun v => (u, v)) ++ rest)
      (vis ++ [u]) (acc ++ [(p, u)])

/-- Sufficient fuel for a full traversal of (V, M). -/
def dfsFuel (V : List Int) (M : List (Int × Int)) : Nat :=
  V.length + 2 * M.length + 1

/-- The (parent, child) tree edges of `nx.dfs_edges(mst, source=root)`. -/
def dfsTree (V : List Int) (M : List (Int × Int)) (root : Int) : List (Int × Int) :=
  (dfsLoop M (dfsFuel V M) ((neighborsIn M root).map (fun v => (root, v)))
    [root] []).2

/-- `skeleton_df['rowId'].map(edges).fillna(-1)`: the DFS parent of `v`,
or -1 when `v` never appears as a child. -/
def parentOf (tree : List (Int × Int)) (v : Int) : Int :=
  match tree.find? (fun pc => pc.2 == v) with
  | some pc => pc.1
  | none => -1

/-! ### heal_skeleton, staged -/

/-- Sorted input rows (line `skeleton_df.sort_values('rowId')`). -/
def healDf (df0 : List Node) : List Node := sortSkeleton df0

/-- Graph vertices of the healing run. -/
def healV (df0 : List Node) : List Int := nxNodes (healDf df0)

/-- Graph edges of the healing run (the intra-fragment edges). -/
def healE (df0 : List Node) : List (Int × Int) := nxEdges (healDf df0)

/-- The connected components found by the healing run. -/
def healComps (df0 : List Node) : List (List Int) :=
  componentsOf (healV df0) (healE df0)

/-- The single-component early exit: some component holds as many nodes
as the whole skeleton. -/
def earlyExit (df0 : List Node) : Bool :=
  (healComps df0).any (fun c => c.length == (healDf df0).length)

/-- The fragments, biggest first. -/
def healFrags (df0 : List Node) : List (List Node) :=
  sortFragsDesc (fragsOf (healDf df0) (healComps df0))

/-- The candidate stitches of the healing run. -/
def healStitches (df0 : List Node) : List ((Int × Int) × Nat) :=
  stitchesOf (healFrags df0)

/-- The weighted MST input: every intra-fragment edge at weight 0
(`nx.set_edge_attributes(g, 0, 'distance')`) plus the stitches, stably
sorted by weight as Kruskal does. -/
def healWEdges (df0 : List Node) : List ((Int × Int) × Nat) :=
  List.insertionSort (fun e f => e.2 ≤ f.2)
    ((healE df0).map (fun e => (e, 0)) ++ healStitches df0)

/-- The MST edge list of the healing run. -/
def healMST (df0 : List Node) : List (Int × Int) :=
  kruskal (healV df0) (healWEdges df0)

/-- The DFS tree edges from the root (`skeleton_df['rowId'].iloc[0]`). -/
def healTree (df0 : List Node) : List (Int × Int) :=
  match (healDf df0).head? with
  | none => []
  | some r0 => dfsTree (healV df0) (healMST df0) r0.rowId

/-- The relinked rows (`skeleton_df['link'] = ...map(edges).fillna(-1)`). -/
def healOut (df0 : List Node) : List Node :=
  (healDf df0).map (fun r => { r with link := parentOf (healTree df0) r.rowId })

/-- `heal_skeleton`.  `Except.error` models a raised Python exception:
the IndexError of `iloc[0]` on an empty frame, and the two final
`assert` statements. -/
def heal (df0 : List Node) : Except String (List Node) :=
  if earlyExit df0 then .ok (healDf df0)
  else
    match (healDf df0).head? with
    | none => .error "IndexError: single positional indexer is out-of-bounds"
    | some _ =>
      let out := healOut df0
      if ((out.filter (fun r => r.link = -1)).length = 1)
          ∧ ((out.head?.map (fun r => r.link)).getD 0 = -1)
      then .ok out
      else .error "AssertionError"

/-! ### Specification-side predicates -/

/-- The undirected edges induced by the parent (`link`) column:
one edge (link, rowId) per non-root row. -/
def linkEdges (df : List Node) : List (Int × Int) :=
  df.filterMap (fun r => if r.link = -1 then none else some (r.link, r.rowId))

/-- The link value stored for id `v` (first matching row; -1 if absent). -/
def linkOf (df : List Node) (v : Int) : Int :=
  match df.find? (fun r => r.rowId == v) with
  | some r => r.link
  | none => -1

/-- The parent chain starting at value `v` reaches the sentinel -1
within `fuel` steps. -/
def chainHits (df : List Node) : Nat → Int → Bool
  | 0, v => v == -1
  | fuel + 1, v => v == -1 || chainHits df fuel (linkOf df v)

/-- A well-formed skeleton: unique ids, no id equal to the sentinel,
every link either the sentinel or a present id, and every parent chain
terminating (each fragment internally a tree). -/
def WellFormed (df : List Node) : Prop :=
  (nodeIds df).Nodup ∧
  (∀ r ∈ df, r.rowId ≠ -1) ∧
  (∀ r ∈ df, r.link = -1 ∨ r.link ∈ nodeIds df) ∧
  (∀ r ∈ df, chainHits df df.length r.link = true)

instance (df : List Node) : Decidable (WellFormed df) := by
  unfold WellFormed; infer_instance

/-- Number of fragments seen by the healing run. -/
def numFragsOf (df0 : List Node) : Nat := (healComps df0).length

/-- Number of rows whose link is the sentinel. -/
def countSentinel (df : List Node) : Nat :=
  (df.filter (fun r => r.link = -1)).length

/-! ### Concrete skeletons used to instantiate the theorems -/

/-- The geometry-and-identity part of a row (everything but `link`). -/
def geomOf (r : Node) : Int × Int × Int × Int × Int :=
  (r.rowId, r.x, r.y, r.z, r.radius)

/-- A connected three-node chain (the spec's already-whole scenario). -/
def ex3 : List Node :=
  [⟨1, 0, 0, 0, 1, -1⟩, ⟨2, 1, 0, 0, 1, 1⟩, ⟨3, 2, 0, 0, 1, 2⟩]

/-- The spec's two-fragment scenario. -/
def ex8 : List Node :=
  [⟨1, 0, 0, 0, 1, -1⟩, ⟨2, 1, 0, 0, 1, 1⟩,
   ⟨3, 10, 0, 0, 1, -1⟩, ⟨4, 11, 0, 0, 1, 3⟩]

/-- The healed output of the two-fragment scenario. -/
def ex8out : List Node :=
  [⟨1, 0, 0, 0, 1, -1⟩, ⟨2, 1, 0, 0, 1, 1⟩,
   ⟨3, 10, 0, 0, 1, 2⟩, ⟨4, 11, 0, 0, 1, 3⟩]

/-- A connected two-node skeleton whose root is not the smallest id. -/
def exC4 : List Node :=
  [⟨2, 0, 0, 0, 1, -1⟩, ⟨1, 1, 0, 0, 1, 2⟩]

/-- exC4 after healing (the early exit returns the id-sorted rows). -/
def exC4out : List Node :=
  [⟨1, 1, 0, 0, 1, 2⟩, ⟨2, 0, 0, 0, 1, -1⟩]

/-- A single row whose parent id 5 is not a node of the skeleton. -/
def exDangle : List Node :=
  [⟨1, 0, 0, 0, 1, 5⟩]

/-- Two rows sharing the id 1 (ids not unique). -/
def exDup : List Node :=
  [⟨1, 0, 0, 0, 1, -1⟩, ⟨1, 5, 0, 0, 1, -1⟩]

/-! ## Basic lemmas about undirected connectivity -/

theorem adjIn_symm {E : List (Int × Int)} {a b : Int} (h : adjIn E a b) :
    adjIn E b a := Or.symm h

theorem adjIn_mono {E E' : List (Int × Int)} (hsub : ∀ e ∈ E, e ∈ E')
    {a b : Int} (h : adjIn E a b) : adjIn E' a b :=
  h.imp (fun h1 => hsub _ h1) (fun h2 => hsub _ h2)

theorem Conn.mono {E E' : List (Int × Int)} (hsub : ∀ e ∈ E, e ∈ E')
    {a b : Int} (h : Conn E a b) : Conn E' a b := by
  induction h with
  | refl => exact .refl _
  | tail _ hadj ih => exact .tail ih (adjIn_mono hsub hadj)

theorem Conn.trans {E : List (Int × Int)} {a b c : Int}
    (h1 : Conn E a b) (h2 : Conn E b c) : Conn E a c := by
  induction h2 with
  | refl => exact h1
  | tail _ hadj ih => exact .tail ih hadj

theorem Conn.single {E : List (Int × Int)} {a b : Int} (h : adjIn E a b) :
    Conn E a b := .tail (.refl a) h

theorem Conn.symm {E : List (Int × Int)} {a b : Int} (h : Conn E a b) :
    Conn E b a := by
  induction h with
  | refl => exact .refl _
  | tail _ hadj ih => exact Conn.trans (Conn.single (adjIn_symm hadj)) ih

theorem conn_nil {a b : Int} (h : Conn [] a b) : a = b := by
  induction h with
  | refl => rfl
  | tail _ hadj _ => rcases hadj with h1 | h1 <;> simp at h1

/-- Effect of appending one edge on reachability. -/
theorem conn_append_single {E : List (Int × Int)} {x y : Int} {a b : Int} :
    Conn (E ++ [(x, y)]) a b ↔
      Conn E a b ∨ (Conn E a x ∧ Conn E y b) ∨ (Conn E a y ∧ Conn E x b) := by
  constructor
  · intro h
    induction h with
    | refl => exact Or.inl (.refl _)
    | tail _ hadj ih =>
      rename_i c d _
      rcases hadj with h1 | h1 <;> rw [List.mem_append] at h1
      · rcases h1 with h1 | h1
        · rcases ih with h2 | ⟨h2, h3⟩ | ⟨h2, h3⟩
          · exact Or.inl (h2.tail (Or.inl h1))
          · exact Or.inr (Or.inl ⟨h2, h3.tail (Or.inl h1)⟩)
          · exact Or.inr (Or.inr ⟨h2, h3.tail (Or.inl h1)⟩)
        · simp only [List.mem_singleton, Prod.mk.injEq] at h1
          obtain ⟨hc, hd⟩ := h1
          subst hc hd
          rcases ih with h2 | ⟨h2, h3⟩ | ⟨h2, h3⟩
          · exact Or.inr (Or.inl ⟨h2, .refl _⟩)
          · exact Or.inr (Or.inl ⟨h2, .refl _⟩)
          · exact Or.inl h2
      · rcases h1 with h1 | h1
        · rcases ih with h2 | ⟨h2, h3⟩ | ⟨h2, h3⟩
          · exact Or.inl (h2.tail (Or.inr h1))
          · exact Or.inr (Or.inl ⟨h2, h3.tail (Or.inr h1)⟩)
          · exact Or.inr (Or.inr ⟨h2, h3.tail (Or.inr h1)⟩)
        · simp only [List.mem_singleton, Prod.mk.injEq] at h1
          obtain ⟨hd, hc⟩ := h1
          subst hd hc
          rcases ih with h2 | ⟨h2, h3⟩ | ⟨h2, h3⟩
          · exact Or.inr (Or.inr ⟨h2, .refl _⟩)
          · exact Or.inl h2
          · exact Or.inr (Or.inr ⟨h2, .refl _⟩)
  · have hmono : ∀ e ∈ E, e ∈ E ++ [(x, y)] := fun e he => List.mem_append_left _ he
    have hxy : adjIn (E ++ [(x, y)]) x y :=
      Or.inl (List.mem_append_right _ (List.mem_singleton.mpr rfl))
    rintro (h | ⟨h1, h2⟩ | ⟨h1, h2⟩)
    · exact h.mono hmono
    · exact ((h1.mono hmono).tail hxy).trans (h2.mono hmono)
    · exact ((h1.mono hmono).tail (adjIn_symm hxy)).trans (h2.mono hmono)

/-- Appending an edge whose endpoints are already connected does not
change reachability. -/
theorem conn_append_implied {E : List (Int × Int)} {x y : Int}
    (hxy : Conn E x y) {a b : Int} :
    Conn (E ++ [(x, y)]) a b ↔ Conn E a b := by
  rw [conn_append_single]
  constructor
  · rintro (h | ⟨h1, h2⟩ | ⟨h1, h2⟩)
    · exact h
    · exact (h1.trans (hxy.trans h2))
    · exact (h1.trans (hxy.symm.trans h2))
  · exact Or.inl

/-- Reachability only depends on the set of listed edges. -/
theorem conn_congr {E E' : List (Int × Int)} (h : ∀ e, e ∈ E ↔ e ∈ E')
    {a b : Int} : Conn E a b ↔ Conn E' a b :=
  ⟨fun hc => hc.mono (fun e he => (h e).mp he),
   fun hc => hc.mono (fun e he => (h e).mpr he)⟩

/-! ## Lemmas about the label map -/

theorem keys_relabelAll (m : LabelMap) (la lb : Int) :
    (relabelAll m la lb).map (·.1) = m.map (·.1) := by
  unfold relabelAll
  rw [List.map_map]
  apply List.map_congr_left
  intro p _
  by_cases h : p.2 = lb <;> simp [h]

theorem keys_unionEdge (m : LabelMap) (e : Int × Int) :
    (unionEdge m e).map (·.1) = m.map (·.1) := keys_relabelAll _ _ _

theorem keys_initLabels (V : List Int) : (initLabels V).map (·.1) = V := by
  unfold initLabels
  rw [List.map_map]
  exact List.map_id _

theorem keys_foldl_unionEdge (E : List (Int × Int)) :
    ∀ m : LabelMap, (E.foldl unionEdge m).map (·.1) = m.map (·.1) := by
  induction E with
  | nil => intro m; rfl
  | cons e E ih => intro m; rw [List.foldl_cons, ih, keys_unionEdge]

theorem keys_compMap (V : List Int) (E : List (Int × Int)) :
    (compMap V E).map (·.1) = V := by
  unfold compMap
  rw [keys_foldl_unionEdge, keys_initLabels]

theorem labels_relabelAll (m : LabelMap) (la lb : Int) :
    (relabelAll m la lb).map (·.2) =
      (m.map (·.2)).map (fun c => if c = lb then la else c) := by
  unfold relabelAll
  rw [List.map_map, List.map_map]
  apply List.map_congr_left
  intro p _
  by_cases h : p.2 = lb <;> simp [h]

theorem relabelAll_self (m : LabelMap) (la : Int) :
    relabelAll m la la = m := by
  unfold relabelAll
  have h : ∀ p ∈ m, (if p.2 = la then (p.1, la) else p) = p := by
    intro p _
    by_cases h : p.2 = la
    · rw [if_pos h, ← h]
    · rw [if_neg h]
  rw [List.map_congr_left h]
  simp

theorem relabelAll_cons (p : Int × Int) (m : LabelMap) (la lb : Int) :
    relabelAll (p :: m) la lb =
      (if p.2 = lb then (p.1, la) else p) :: relabelAll m la lb := rfl

theorem lookupLab_nil (v : Int) : lookupLab [] v = v := rfl

theorem lookupLab_cons (p : Int × Int) (m : LabelMap) (v : Int) :
    lookupLab (p :: m) v = if p.1 = v then p.2 else lookupLab m v := by
  by_cases h : p.1 = v
  · rw [if_pos h]
    unfold lookupLab
    rw [List.find?_cons_of_pos _ (by simp [h])]
  · rw [if_neg h]
    unfold lookupLab
    rw [List.find?_cons_of_neg _ (by simp [h])]

theorem lookupLab_initLabels (V : List Int) (v : Int) :
    lookupLab (initLabels V) v = v := by
  induction V with
  | nil => rfl
  | cons u V ih =>
    show lookupLab ((u, u) :: initLabels V) v = v
    rw [lookupLab_cons]
    by_cases h : u = v
    · rw [if_pos h]; exact h
    · rw [if_neg h]; exact ih

theorem lookupLab_mem_labels {m : LabelMap} {v : Int}
    (h : v ∈ m.map (·.1)) : lookupLab m v ∈ m.map (·.2) := by
  induction m with
  | nil => simp at h
  | cons p m ih =>
    rw [lookupLab_cons, List.map_cons]
    by_cases hp : p.1 = v
    · rw [if_pos hp]; exact List.mem_cons_self _ _
    · rw [if_neg hp]
      rw [List.map_cons, List.mem_cons] at h
      rcases h with h | h
      · exact absurd h.symm hp
      · exact List.mem_cons_of_mem _ (ih h)

theorem lookupLab_relabelAll {m : LabelMap} {v : Int}
    (h : v ∈ m.map (·.1)) (la lb : Int) :
    lookupLab (relabelAll m la lb) v =
      if lookupLab m v = lb then la else lookupLab m v := by
  induction m with
  | nil => simp at h
  | cons p m ih =>
    rw [relabelAll_cons, lookupLab_cons, lookupLab_cons]
    by_cases hp : p.1 = v
    · by_cases hl : p.2 = lb <;> simp [hp, hl]
    · have hm : v ∈ m.map (·.1) := by
        rw [List.map_cons, List.mem_cons] at h
        exact h.resolve_left (fun hh => hp hh.symm)
      by_cases hl : p.2 = lb <;> simp [hp, hl, ih hm]

theorem lookupLab_unionEdge {m : LabelMap} {v : Int}
    (h : v ∈ m.map (·.1)) (e : Int × Int) :
    lookupLab (unionEdge m e) v =
      if lookupLab m v = lookupLab m e.2
      then lookupLab m e.1 else lookupLab m v :=
  lookupLab_relabelAll h _ _

/-- Propositional core of the union step: after substituting label `lb`
by `la`, two labels agree iff they agreed before or each matched one of
the two merged classes. -/
theorem substLab_eq_iff {ca cb la lb : Int} :
    ((if ca = lb then la else ca) = (if cb = lb then la else cb)) ↔
      (ca = cb ∨ (ca = la ∧ lb = cb) ∨ (ca = lb ∧ la = cb)) := by
  by_cases h1 : ca = lb
  · by_cases h2 : cb = lb
    · rw [if_pos h1, if_pos h2]; omega
    · rw [if_pos h1, if_neg h2]; omega
  · by_cases h2 : cb = lb
    · rw [if_neg h1, if_pos h2]; omega
    · rw [if_neg h1, if_neg h2]; omega

/-! ## Correctness of the label map: equal labels iff connected -/

theorem lookup_unionEdge_iff {V : List Int} {m : LabelMap} {P : List (Int × Int)}
    {e : Int × Int}
    (hkeys : m.map (·.1) = V) (h1 : e.1 ∈ V) (h2 : e.2 ∈ V)
    (hGood : ∀ a ∈ V, ∀ b ∈ V,
      (lookupLab m a = lookupLab m b ↔ Conn P a b)) :
    ∀ a ∈ V, ∀ b ∈ V,
      (lookupLab (unionEdge m e) a = lookupLab (unionEdge m e) b ↔
        Conn (P ++ [e]) a b) := by
  intro a ha b hb
  have hkm : ∀ v, v ∈ V → v ∈ m.map (·.1) := fun v hv => hkeys ▸ hv
  rw [lookupLab_unionEdge (hkm a ha), lookupLab_unionEdge (hkm b hb)]
  have hdecomp : Conn (P ++ [e]) a b ↔
      Conn P a b ∨ (Conn P a e.1 ∧ Conn P e.2 b) ∨
        (Conn P a e.2 ∧ Conn P e.1 b) := by
    have : (e.1, e.2) = e := rfl
    rw [← this]
    exact conn_append_single
  rw [hdecomp, ← hGood a ha b hb, ← hGood a ha e.1 h1, ← hGood e.2 h2 b hb,
    ← hGood a ha e.2 h2, ← hGood e.1 h1 b hb]
  exact substLab_eq_iff

theorem lookup_foldl_iff (V : List Int) :
    ∀ (E : List (Int × Int)) (m : LabelMap) (P : List (Int × Int)),
    m.map (·.1) = V →
    (∀ e ∈ E, e.1 ∈ V ∧ e.2 ∈ V) →
    (∀ a ∈ V, ∀ b ∈ V, (lookupLab m a = lookupLab m b ↔ Conn P a b)) →
    ∀ a ∈ V, ∀ b ∈ V,
      (lookupLab (E.foldl unionEdge m) a = lookupLab (E.foldl unionEdge m) b ↔
        Conn (P ++ E) a b) := by
  intro E
  induction E with
  | nil =>
    intro m P hkeys _ hGood a ha b hb
    rw [List.foldl_nil, List.append_nil]
    exact hGood a ha b hb
  | cons e E ih =>
    intro m P hkeys hE hGood a ha b hb
    rw [List.foldl_cons]
    have hkeys' : (unionEdge m e).map (·.1) = V := by
      rw [keys_unionEdge]; exact hkeys
    have h1 := (hE e (List.mem_cons_self _ _)).1
    have h2 := (hE e (List.mem_cons_self _ _)).2
    have hGood' := lookup_unionEdge_iff hkeys h1 h2 hGood
    have hE' : ∀ f ∈ E, f.1 ∈ V ∧ f.2 ∈ V :=
      fun f hf => hE f (List.mem_cons_of_mem _ hf)
    have := ih (unionEdge m e) (P ++ [e]) hkeys' hE' hGood' a ha b hb
    rwa [List.append_assoc, List.singleton_append] at this

/-- Two vertices of (V, E) carry the same label iff they are connected. -/
theorem lookup_compMap_iff {V : List Int} {E : List (Int × Int)}
    (hE : ∀ e ∈ E, e.1 ∈ V ∧ e.2 ∈ V) {a b : Int} (ha : a ∈ V) (hb : b ∈ V) :
    lookupLab (compMap V E) a = lookupLab (compMap V E) b ↔ Conn E a b := by
  have hGood : ∀ a ∈ V, ∀ b ∈ V,
      (lookupLab (initLabels V) a = lookupLab (initLabels V) b ↔
        Conn ([] : List (Int × Int)) a b) := by
    intro a _ b _
    rw [lookupLab_initLabels, lookupLab_initLabels]
    exact ⟨fun h => h ▸ .refl a, fun h => conn_nil h⟩
  have := lookup_foldl_iff V E (initLabels V) [] (keys_initLabels V) hE hGood
    a ha b hb
  rwa [List.nil_append] at this

/-! ## Counting components -/

theorem labels_initLabels (V : List Int) : (initLabels V).map (·.2) = V := by
  unfold initLabels
  rw [List.map_map]
  exact List.map_id _

theorem toFinset_map_int (f : Int → Int) (l : List Int) :
    (l.map f).toFinset = l.toFinset.image f := by
  induction l with
  | nil => simp
  | cons x l ih =>
    rw [List.map_cons, List.toFinset_cons, List.toFinset_cons,
      Finset.image_insert, ih]

theorem image_subst_eq_erase {S : Finset Int} {la lb : Int}
    (hla : la ∈ S) (hlb : lb ∈ S) (hne : la ≠ lb) :
    S.image (fun c => if c = lb then la else c) = S.erase lb := by
  ext x
  rw [Finset.mem_image, Finset.mem_erase]
  constructor
  · rintro ⟨y, hy, hxy⟩
    by_cases h : y = lb
    · rw [h, if_pos rfl] at hxy
      exact hxy ▸ ⟨hne, hla⟩
    · rw [if_neg h] at hxy
      exact hxy ▸ ⟨h, hy⟩
  · rintro ⟨hxlb, hxS⟩
    by_cases h : x = la
    · exact ⟨lb, hlb, by rw [if_pos rfl, h]⟩
    · exact ⟨x, hxS, by rw [if_neg hxlb]⟩

theorem card_labels_unionEdge {m : LabelMap} {e : Int × Int}
    (h1 : e.1 ∈ m.map (·.1)) (h2 : e.2 ∈ m.map (·.1))
    (hne : lookupLab m e.1 ≠ lookupLab m e.2) :
    ((unionEdge m e).map (·.2)).toFinset.card + 1 =
      (m.map (·.2)).toFinset.card := by
  unfold unionEdge
  rw [labels_relabelAll, toFinset_map_int]
  have hla : lookupLab m e.1 ∈ (m.map (·.2)).toFinset :=
    List.mem_toFinset.mpr (lookupLab_mem_labels h1)
  have hlb : lookupLab m e.2 ∈ (m.map (·.2)).toFinset :=
    List.mem_toFinset.mpr (lookupLab_mem_labels h2)
  rw [image_subst_eq_erase hla hlb hne]
  exact Finset.card_erase_add_one hlb

theorem unionEdge_eq_of_lookup_eq {m : LabelMap} {e : Int × Int}
    (h : lookupLab m e.1 = lookupLab m e.2) : unionEdge m e = m := by
  unfold unionEdge
  rw [h]
  exact relabelAll_self _ _

theorem compMap_append_single (V : List Int) (E : List (Int × Int))
    (e : Int × Int) :
    compMap V (E ++ [e]) = unionEdge (compMap V E) e := by
  unfold compMap
  rw [List.foldl_append]
  rfl

/-- With distinct keys, the label column is the key column mapped through
the lookup function. -/
theorem labels_eq_map_lookup {m : LabelMap} (h : (m.map (·.1)).Nodup) :
    m.map (·.2) = (m.map (·.1)).map (lookupLab m) := by
  induction m with
  | nil => rfl
  | cons p m ih =>
    rw [List.map_cons, List.map_cons, List.map_cons]
    rw [List.map_cons, List.nodup_cons] at h
    congr 1
    · rw [lookupLab_cons, if_pos rfl]
    · rw [ih h.2]
      apply List.map_congr_left
      intro k hk
      rw [lookupLab_cons, if_neg]
      intro hq
      exact h.1 (hq ▸ hk)

/-- Functions with the same kernel on `V` have images of equal size. -/
theorem card_map_toFinset_eq {V : List Int} {f g : Int → Int}
    (h : ∀ a ∈ V, ∀ b ∈ V, (f a = f b ↔ g a = g b)) :
    (V.map f).toFinset.card = (V.map g).toFinset.card := by
  induction V with
  | nil => rfl
  | cons v V ih =>
    rw [List.map_cons, List.map_cons, List.toFinset_cons, List.toFinset_cons]
    have hmem : f v ∈ (V.map f).toFinset ↔ g v ∈ (V.map g).toFinset := by
      rw [List.mem_toFinset, List.mem_toFinset, List.mem_map, List.mem_map]
      constructor
      · rintro ⟨b, hb, hfb⟩
        exact ⟨b, hb, (h b (List.mem_cons_of_mem _ hb) v
          (List.mem_cons_self _ _)).mp hfb⟩
      · rintro ⟨b, hb, hgb⟩
        exact ⟨b, hb, (h b (List.mem_cons_of_mem _ hb) v
          (List.mem_cons_self _ _)).mpr hgb⟩
    have ih' := ih (fun a ha b hb =>
      h a (List.mem_cons_of_mem _ ha) b (List.mem_cons_of_mem _ hb))
    by_cases hf : f v ∈ (V.map f).toFinset
    · rw [Finset.insert_eq_self.mpr hf, Finset.insert_eq_self.mpr (hmem.mp hf)]
      exact ih'
    · rw [Finset.card_insert_of_not_mem hf,
        Finset.card_insert_of_not_mem (fun hg => hf (hmem.mpr hg)), ih']

/-- Graphs with the same reachability relation have the same number of
components. -/
theorem numComps_congr {V : List Int} {E1 E2 : List (Int × Int)}
    (hV : V.Nodup)
    (h1 : ∀ e ∈ E1, e.1 ∈ V ∧ e.2 ∈ V) (h2 : ∀ e ∈ E2, e.1 ∈ V ∧ e.2 ∈ V)
    (hconn : ∀ a b, Conn E1 a b ↔ Conn E2 a b) :
    numComps V E1 = numComps V E2 := by
  unfold numComps
  rw [labels_eq_map_lookup (by rw [keys_compMap]; exact hV),
    labels_eq_map_lookup (by rw [keys_compMap]; exact hV),
    keys_compMap, keys_compMap]
  apply card_map_toFinset_eq
  intro a ha b hb
  rw [lookup_compMap_iff h1 ha hb, lookup_compMap_iff h2 ha hb]
  exact hconn a b

/-- An everywhere-connected graph has exactly one component. -/
theorem numComps_eq_one {V : List Int} {E : List (Int × Int)}
    (hV : V ≠ []) (hnd : V.Nodup)
    (hE : ∀ e ∈ E, e.1 ∈ V ∧ e.2 ∈ V)
    (hconn : ∀ a ∈ V, ∀ b ∈ V, Conn E a b) :
    numComps V E = 1 := by
  unfold numComps
  rw [labels_eq_map_lookup (by rw [keys_compMap]; exact hnd), keys_compMap]
  obtain ⟨v, V', hVV⟩ : ∃ v V', V = v :: V' := by
    cases V with
    | nil => exact absurd rfl hV
    | cons v V' => exact ⟨v, V', rfl⟩
  have hv : v ∈ V := hVV ▸ List.mem_cons_self _ _
  rw [Finset.card_eq_one]
  refine ⟨lookupLab (compMap V E) v, ?_⟩
  ext c
  rw [List.mem_toFinset, Finset.mem_singleton, List.mem_map]
  constructor
  · rintro ⟨b, hb, hbc⟩
    rw [← hbc]
    exact (lookup_compMap_iff hE hb hv).mpr (hconn b hb v hv)
  · intro hc
    exact ⟨v, hv, hc.symm⟩

/-! ## Kruskal invariants -/

theorem kruskalGo_cons (e : Int × Int) (w : Nat)
    (rest : List ((Int × Int) × Nat)) (m : LabelMap) (acc : List (Int × Int)) :
    kruskalGo ((e, w) :: rest) m acc =
      if lookupLab m e.1 = lookupLab m e.2 then kruskalGo rest m acc
      else kruskalGo rest (unionEdge m e) (acc ++ [e]) := rfl

theorem kruskalGo_append (xs ys : List ((Int × Int) × Nat)) (m : LabelMap)
    (acc : List (Int × Int)) :
    kruskalGo (xs ++ ys) m acc =
      kruskalGo ys (kruskalGo xs m acc).1 (kruskalGo xs m acc).2 := by
  induction xs generalizing m acc with
  | nil => rfl
  | cons ew xs ih =>
    obtain ⟨e, w⟩ := ew
    rw [List.cons_append, kruskalGo_cons, kruskalGo_cons]
    by_cases h : lookupLab m e.1 = lookupLab m e.2
    · rw [if_pos h, if_pos h, ih]
    · rw [if_neg h, if_neg h, ih]

/-- Hypotheses-carrying invariant of the Kruskal loop: starting from the
state of the already-accepted edge list `acc`, the loop extends `acc` by a
sublist of the remaining edges, preserves reachability of the processed
graph, and accepts exactly one edge per component merge. -/
theorem kruskalGo_spec (V : List Int) :
    ∀ (wes : List ((Int × Int) × Nat)) (acc : List (Int × Int)),
    (∀ ew ∈ wes, ew.1.1 ∈ V ∧ ew.1.2 ∈ V) →
    (∀ e ∈ acc, e.1 ∈ V ∧ e.2 ∈ V) →
    (acc.length + numComps V acc = V.length) →
    ∃ D, kruskalGo wes (compMap V acc) acc = (compMap V (acc ++ D), acc ++ D) ∧
      D.Sublist (wes.map (·.1)) ∧
      (∀ e ∈ D, e.1 ∈ V ∧ e.2 ∈ V) ∧
      (∀ a b, Conn (acc ++ D) a b ↔ Conn (acc ++ wes.map (·.1)) a b) ∧
      ((acc ++ D).length + numComps V (acc ++ D) = V.length) := by
  intro wes
  induction wes with
  | nil =>
    intro acc _ hacc hcount
    refine ⟨[], ?_, List.nil_sublist _, by simp, ?_, ?_⟩
    · rw [List.append_nil]
      rfl
    · intro a b
      rw [List.map_nil, List.append_nil]
    · rw [List.append_nil]
      exact hcount
  | cons ew rest ih =>
    intro acc hwes hacc hcount
    obtain ⟨e, w⟩ := ew
    have he1 : e.1 ∈ V := (hwes (e, w) (List.mem_cons_self _ _)).1
    have he2 : e.2 ∈ V := (hwes (e, w) (List.mem_cons_self _ _)).2
    have hrest : ∀ ew ∈ rest, ew.1.1 ∈ V ∧ ew.1.2 ∈ V :=
      fun f hf => hwes f (List.mem_cons_of_mem _ hf)
    rw [kruskalGo_cons]
    by_cases h : lookupLab (compMap V acc) e.1 = lookupLab (compMap V acc) e.2
    · rw [if_pos h]
      obtain ⟨D, hres, hsub, hDin, hconn, hcnt⟩ := ih acc hrest hacc hcount
      have hConnE : Conn acc e.1 e.2 := (lookup_compMap_iff hacc he1 he2).mp h
      refine ⟨D, hres, hsub.cons _, hDin, ?_, hcnt⟩
      intro a b
      rw [hconn a b]
      have hmm : ∀ x, x ∈ acc ++ ((e, w) :: rest).map (·.1) ↔
          x ∈ (acc ++ rest.map (·.1)) ++ [e] := by
        intro x
        simp only [List.map_cons, List.mem_append, List.mem_cons,
          List.mem_singleton]
        tauto
      rw [conn_congr hmm]
      have hImp : Conn (acc ++ rest.map (·.1)) e.1 e.2 :=
        hConnE.mono (fun f hf => List.mem_append_left _ hf)
      have := conn_append_implied (E := acc ++ rest.map (·.1)) hImp (a := a) (b := b)
      rw [show ((e.1, e.2) : Int × Int) = e from rfl] at this
      rw [this]
    · rw [if_neg h]
      have hm' : unionEdge (compMap V acc) e = compMap V (acc ++ [e]) :=
        (compMap_append_single V acc e).symm
      have hacc' : ∀ f ∈ acc ++ [e], f.1 ∈ V ∧ f.2 ∈ V := by
        intro f hf
        rcases List.mem_append.mp hf with hf | hf
        · exact hacc f hf
        · rw [List.mem_singleton] at hf
          exact hf ▸ ⟨he1, he2⟩
      have hcount' : (acc ++ [e]).length + numComps V (acc ++ [e]) = V.length := by
        have hk1 : e.1 ∈ (compMap V acc).map (·.1) := by
          rw [keys_compMap]; exact he1
        have hk2 : e.2 ∈ (compMap V acc).map (·.1) := by
          rw [keys_compMap]; exact he2
        have hdrop := card_labels_unionEdge hk1 hk2 h
        have : numComps V (acc ++ [e]) + 1 = numComps V acc := by
          unfold numComps
          rw [compMap_append_single]
          exact hdrop
        rw [List.length_append, List.length_singleton]
        omega
      obtain ⟨D', hres, hsub, hDin, hconn, hcnt⟩ := ih (acc ++ [e]) hrest hacc' hcount'
      rw [hm']
      refine ⟨e :: D', ?_, ?_, ?_, ?_, ?_⟩
      · rw [hres, List.append_assoc, List.singleton_append]
      · rw [List.map_cons]
        exact hsub.cons₂ _
      · intro f hf
        rcases List.mem_cons.mp hf with hf | hf
        · exact hf ▸ ⟨he1, he2⟩
        · exact hDin f hf
      · intro a b
        have hcc := hconn a b
        rw [List.append_assoc, List.singleton_append, List.append_assoc,
          List.singleton_append] at hcc
        rw [List.map_cons]
        exact hcc
      · rwa [List.append_assoc, List.singleton_append] at hcnt

/-- Top-level Kruskal specification. -/
theorem kruskal_spec (V : List Int) (wes : List ((Int × Int) × Nat))
    (hnd : V.Nodup)
    (hwes : ∀ ew ∈ wes, ew.1.1 ∈ V ∧ ew.1.2 ∈ V) :
    ∃ D, kruskal V wes = D ∧ D.Sublist (wes.map (·.1)) ∧
      (∀ e ∈ D, e.1 ∈ V ∧ e.2 ∈ V) ∧
      (∀ a b, Conn D a b ↔ Conn (wes.map (·.1)) a b) ∧
      (D.length + numComps V D = V.length) := by
  have hcnt0 : ([] : List (Int × Int)).length + numComps V [] = V.length := by
    show 0 + numComps V [] = V.length
    unfold numComps compMap
    rw [List.foldl_nil, labels_initLabels, List.toFinset_card_of_nodup hnd]
    omega
  obtain ⟨D, hres, hsub, hDin, hconn, hcnt⟩ :=
    kruskalGo_spec V wes [] hwes (by simp) hcnt0
  refine ⟨D, ?_, hsub, hDin, ?_, ?_⟩
  · unfold kruskal
    show (kruskalGo wes (compMap V []) []).2 = D
    rw [hres]
    simp
  · intro a b
    have := hconn a b
    rwa [List.nil_append, List.nil_append] at this
  · rw [List.nil_append] at hcnt
    exact hcnt

/-- In the empty graph every vertex is its own component. -/
theorem numComps_nil {V : List Int} (hnd : V.Nodup) :
    numComps V [] = V.length := by
  unfold numComps compMap
  rw [List.foldl_nil, labels_initLabels, List.toFinset_card_of_nodup hnd]

theorem map_fst_zero_weight (I : List (Int × Int)) :
    ((I.map (fun e => (e, (0 : Nat)))).map (·.1)) = I := by
  rw [List.map_map]
  exact List.map_id _

/-- Kruskal on [all zero-weight forest edges] ++ [stitches] accepts every
forest edge and then a sublist of the stitches. -/
theorem kruskal_zero_first (V : List Int) (I : List (Int × Int))
    (S : List ((Int × Int) × Nat)) (hnd : V.Nodup)
    (hI : ∀ e ∈ I, e.1 ∈ V ∧ e.2 ∈ V)
    (hS : ∀ ew ∈ S, ew.1.1 ∈ V ∧ ew.1.2 ∈ V)
    (hforest : I.length + numComps V I = V.length) :
    ∃ D, kruskal V (I.map (fun e => (e, 0)) ++ S) = I ++ D ∧
      D.Sublist (S.map (·.1)) ∧ (∀ e ∈ D, e.1 ∈ V ∧ e.2 ∈ V) ∧
      (∀ a b, Conn (I ++ D) a b ↔ Conn (I ++ S.map (·.1)) a b) ∧
      ((I ++ D).length + numComps V (I ++ D) = V.length) := by
  have hI0 : ∀ ew ∈ I.map (fun e => (e, (0 : Nat))), ew.1.1 ∈ V ∧ ew.1.2 ∈ V := by
    intro ew hew
    rw [List.mem_map] at hew
    obtain ⟨e, he, hee⟩ := hew
    exact hee ▸ hI e he
  have hcnt0 : ([] : List (Int × Int)).length + numComps V [] = V.length := by
    rw [List.length_nil, numComps_nil hnd]
    omega
  obtain ⟨D1, hres1, hsub1, hD1in, hconn1, hcnt1⟩ :=
    kruskalGo_spec V (I.map (fun e => (e, 0))) [] hI0 (by simp) hcnt0
  rw [map_fst_zero_weight] at hsub1
  simp only [List.nil_append, map_fst_zero_weight] at hres1 hconn1 hcnt1
  have hcongr : numComps V D1 = numComps V I :=
    numComps_congr hnd hD1in hI hconn1
  have hlen : D1.length = I.length := by omega
  have hD1 : D1 = I := hsub1.eq_of_length hlen
  obtain ⟨D2, hres2, hsub2, hD2in, hconn2, hcnt2⟩ :=
    kruskalGo_spec V S I hS hI hforest
  refine ⟨D2, ?_, hsub2, hD2in, hconn2, hcnt2⟩
  unfold kruskal
  rw [kruskalGo_append]
  have hphase1 : kruskalGo (I.map (fun e => (e, 0))) (initLabels V) [] =
      (compMap V I, I) := by
    have hcm : compMap V ([] : List (Int × Int)) = initLabels V := rfl
    rw [← hcm, hres1, hD1]
  rw [hphase1]
  show (kruskalGo S (compMap V I) I).2 = I ++ D2
  rw [hres2]

/-! ## DFS: neighbour lemmas -/

theorem neighborsIn_cons (e : Int × Int) (M : List (Int × Int)) (u : Int) :
    neighborsIn (e :: M) u =
      (if e.1 = u then [e.2] else if e.2 = u then [e.1] else []) ++
        neighborsIn M u := by
  unfold neighborsIn
  rw [List.filterMap_cons]
  by_cases h1 : e.1 = u
  · rw [if_pos h1, if_pos h1]
    rfl
  · rw [if_neg h1, if_neg h1]
    by_cases h2 : e.2 = u
    · rw [if_pos h2, if_pos h2]
      rfl
    · rw [if_neg h2, if_neg h2]
      rfl

theorem mem_neighborsIn {M : List (Int × Int)} {u v : Int} :
    v ∈ neighborsIn M u ↔ adjIn M u v := by
  induction M with
  | nil =>
    unfold neighborsIn adjIn
    simp
  | cons e M ih =>
    obtain ⟨a, b⟩ := e
    rw [neighborsIn_cons, List.mem_append, ih]
    unfold adjIn
    by_cases ha : a = u <;> by_cases hb : b = u <;>
      simp [ha, hb, Prod.ext_iff, List.mem_cons, eq_comm] <;> tauto

theorem dfsLoop_cons (M : List (Int × Int)) (fuel : Nat) (p u : Int)
    (rest : List (Int × Int)) (vis : List Int) (acc : List (Int × Int)) :
    dfsLoop M (fuel + 1) ((p, u) :: rest) vis acc =
      if u ∈ vis then dfsLoop M fuel rest vis acc
      else dfsLoop M fuel ((neighborsIn M u).map (fun v => (u, v)) ++ rest)
        (vis ++ [u]) (acc ++ [(p, u)]) := rfl

/-- Soundness invariant of the DFS loop: the visited list grows exactly by
the children of the emitted tree edges; tree edges are graph edges, every
child is visited once, each parent precedes its child in visit order, and
every visited node is connected to `root` through the tree edges. -/
theorem dfsLoop_sound (M : List (Int × Int)) (V : List Int) (root : Int)
    (hM : ∀ e ∈ M, e.1 ∈ V ∧ e.2 ∈ V) :
    ∀ (fuel : Nat) (st : List (Int × Int)) (vis : List Int)
      (acc : List (Int × Int)),
    (∀ pu ∈ st, pu.1 ∈ vis ∧ adjIn M pu.1 pu.2 ∧ pu.2 ∈ V) →
    vis.Nodup →
    (∀ x ∈ vis, x ∈ V) →
    (∀ x ∈ vis, Conn acc root x) →
    ∃ ext,
      (dfsLoop M fuel st vis acc).1 = vis ++ ext.map (·.2) ∧
      (dfsLoop M fuel st vis acc).2 = acc ++ ext ∧
      (∀ pu ∈ ext, adjIn M pu.1 pu.2) ∧
      (vis ++ ext.map (·.2)).Nodup ∧
      (∀ x ∈ vis ++ ext.map (·.2), x ∈ V) ∧
      (∀ pu ∈ ext, [pu.1, pu.2].Sublist (vis ++ ext.map (·.2))) ∧
      (∀ x ∈ vis ++ ext.map (·.2), Conn (acc ++ ext) root x) := by
  intro fuel
  induction fuel with
  | zero =>
    intro st vis acc _ hvnd hvisV hconn
    refine ⟨[], by simp [dfsLoop], by simp [dfsLoop], by simp, ?_, ?_, by simp, ?_⟩
    · simpa using hvnd
    · simpa using hvisV
    · intro x hx
      rw [List.map_nil, List.append_nil] at hx
      rw [List.append_nil]
      exact hconn x hx
  | succ fuel ih =>
    intro st vis acc hst hvnd hvisV hconn
    match st with
    | [] =>
      refine ⟨[], by simp [dfsLoop], by simp [dfsLoop], by simp, ?_, ?_, by simp, ?_⟩
      · simpa using hvnd
      · simpa using hvisV
      · intro x hx
        rw [List.map_nil, List.append_nil] at hx
        rw [List.append_nil]
        exact hconn x hx
    | (p, u) :: rest =>
      rw [dfsLoop_cons]
      by_cases hu : u ∈ vis
      · rw [if_pos hu]
        exact ih rest vis acc
          (fun pu hpu => hst pu (List.mem_cons_of_mem _ hpu)) hvnd hvisV hconn
      · rw [if_neg hu]
        obtain ⟨hp, hadj, huV⟩ := hst (p, u) (List.mem_cons_self _ _)
        have hst' : ∀ pu ∈ (neighborsIn M u).map (fun v => (u, v)) ++ rest,
            pu.1 ∈ vis ++ [u] ∧ adjIn M pu.1 pu.2 ∧ pu.2 ∈ V := by
          intro pu hpu
          rcases List.mem_append.mp hpu with hpu | hpu
          · rw [List.mem_map] at hpu
            obtain ⟨v, hv, hvu⟩ := hpu
            subst hvu
            have hadjv : adjIn M u v := mem_neighborsIn.mp hv
            refine ⟨List.mem_append_right _ (List.mem_singleton.mpr rfl),
              hadjv, ?_⟩
            rcases hadjv with h | h
            · exact (hM _ h).2
            · exact (hM _ h).1
          · obtain ⟨h1, h2, h3⟩ := hst pu (List.mem_cons_of_mem _ hpu)
            exact ⟨List.mem_append_left _ h1, h2, h3⟩
        have hvnd' : (vis ++ [u]).Nodup := by
          rw [List.nodup_append]
          exact ⟨hvnd, List.nodup_singleton u,
            fun x hx => by
              rw [List.mem_singleton]
              intro hxu
              exact hu (hxu ▸ hx)⟩
        have hvisV' : ∀ x ∈ vis ++ [u], x ∈ V := by
          intro x hx
          rcases List.mem_append.mp hx with hx | hx
          · exact hvisV x hx
          · rw [List.mem_singleton] at hx
            exact hx ▸ huV
        have hedge : adjIn (acc ++ [(p, u)]) p u :=
          Or.inl (List.mem_append_right _ (List.mem_singleton.mpr rfl))
        have hconn' : ∀ x ∈ vis ++ [u], Conn (acc ++ [(p, u)]) root x := by
          intro x hx
          rcases List.mem_append.mp hx with hx | hx
          · exact (hconn x hx).mono (fun f hf => List.mem_append_left _ hf)
          · rw [List.mem_singleton] at hx
            subst hx
            exact ((hconn p hp).mono
              (fun f hf => List.mem_append_left _ hf)).tail hedge
        obtain ⟨ext, h1, h2, h3, h4, h5, h6, h7⟩ :=
          ih _ (vis ++ [u]) (acc ++ [(p, u)]) hst' hvnd' hvisV' hconn'
        have hshape : vis ++ ((p, u) :: ext).map (·.2) =
            (vis ++ [u]) ++ ext.map (·.2) := by
          rw [List.map_cons, List.append_assoc, List.singleton_append]
        have hshape2 : acc ++ ((p, u) :: ext) = (acc ++ [(p, u)]) ++ ext := by
          rw [List.append_assoc, List.singleton_append]
        refine ⟨(p, u) :: ext, ?_, ?_, ?_, ?_, ?_, ?_, ?_⟩
        · rw [hshape]
          exact h1
        · rw [hshape2]
          exact h2
        · intro pu hpu
          rcases List.mem_cons.mp hpu with hpu | hpu
          · exact hpu ▸ hadj
          · exact h3 pu hpu
        · rw [hshape]
          exact h4
        · intro x hx
          rw [hshape] at hx
          exact h5 x hx
        · intro pu hpu
          rw [hshape]
          rcases List.mem_cons.mp hpu with hpu | hpu
          · subst hpu
            have hpu1 : [p].Sublist vis := List.singleton_sublist.mpr hp
            have hpu2 : [u].Sublist ([u] ++ ext.map (·.2)) :=
              (List.sublist_append_left _ _)
            have hh := List.Sublist.append hpu1 hpu2
            rwa [← List.append_assoc] at hh
          · exact h6 pu hpu
        · intro x hx
          rw [hshape] at hx
          rw [hshape2]
          exact h7 x hx

/-! ## DFS: termination measure and completeness -/

/-- Work bound for the DFS loop: stack entries plus the cost of visiting
each still-unvisited vertex. -/
def dfsMeasure (M : List (Int × Int)) (V : List Int) (vis : List Int)
    (st : List (Int × Int)) : Nat :=
  st.length +
    ((V.filter (fun v => ¬ v ∈ vis)).map
      (fun v => 1 + (neighborsIn M v).length)).sum

theorem filter_unvisited_step {V : List Int} {vis : List Int} {u : Int}
    (hnd : V.Nodup) (hu : u ∈ V) (hnv : u ∉ vis) (w : Int → Nat) :
    ((V.filter (fun v => ¬ v ∈ vis ++ [u])).map w).sum + w u =
      ((V.filter (fun v => ¬ v ∈ vis)).map w).sum := by
  induction V with
  | nil => simp at hu
  | cons a V ih =>
    rw [List.nodup_cons] at hnd
    rw [List.filter_cons, List.filter_cons]
    rcases List.mem_cons.mp hu with hua | hua
    · subst hua
      have hc1 : (decide ¬(u ∈ vis ++ [u])) = false := by
        simp
      have hc2 : (decide ¬(u ∈ vis)) = true := by
        simpa using hnv
      rw [hc1, hc2, if_neg Bool.false_ne_true, if_pos rfl]
      have hfil : V.filter (fun v => ¬ v ∈ vis ++ [u]) =
          V.filter (fun v => ¬ v ∈ vis) := by
        apply List.filter_congr
        intro v hv
        have hvu : v ≠ u := fun h => hnd.1 (h ▸ hv)
        simp [List.mem_append, hvu]
      rw [hfil, List.map_cons, List.sum_cons]
      omega
    · have hau : a ≠ u := fun h => hnd.1 (h ▸ hua)
      have hsame : (decide ¬(a ∈ vis ++ [u])) = (decide ¬(a ∈ vis)) := by
        simp [List.mem_append, hau]
      rw [hsame]
      have ihe := ih hnd.2 hua
      by_cases ha : (decide ¬(a ∈ vis)) = true
      · rw [if_pos ha, if_pos ha, List.map_cons, List.sum_cons,
          List.map_cons, List.sum_cons]
        omega
      · rw [if_neg ha, if_neg ha]
        exact ihe

theorem dfsLoop_closed (M : List (Int × Int)) (V : List Int)
    (hndV : V.Nodup) (hM : ∀ e ∈ M, e.1 ∈ V ∧ e.2 ∈ V) :
    ∀ (fuel : Nat) (st : List (Int × Int)) (vis : List Int)
      (acc : List (Int × Int)),
    dfsMeasure M V vis st ≤ fuel →
    (∀ pu ∈ st, pu.2 ∈ V) →
    (∀ x ∈ vis, ∀ y, adjIn M x y → y ∈ vis ∨ ∃ q, (q, y) ∈ st) →
    ∀ x ∈ (dfsLoop M fuel st vis acc).1, ∀ y, adjIn M x y →
      y ∈ (dfsLoop M fuel st vis acc).1 := by
  intro fuel
  induction fuel with
  | zero =>
    intro st vis acc hfu _ hCL
    have hst : st = [] := by
      have hlen : st.length = 0 := by
        unfold dfsMeasure at hfu
        omega
      exact List.length_eq_zero.mp hlen
    subst hst
    intro x hx y hy
    have := hCL x hx y hy
    simpa using this
  | succ fuel ih =>
    intro st vis acc hfu hstV hCL
    match st with
    | [] =>
      intro x hx y hy
      have := hCL x hx y hy
      simpa using this
    | (p, u) :: rest =>
      rw [dfsLoop_cons]
      by_cases hu : u ∈ vis
      · rw [if_pos hu]
        apply ih rest vis acc ?_ ?_ ?_
        · unfold dfsMeasure at hfu ⊢
          rw [List.length_cons] at hfu
          omega
        · exact fun pu hpu => hstV pu (List.mem_cons_of_mem _ hpu)
        · intro x hx y hy
          rcases hCL x hx y hy with h | ⟨q, hq⟩
          · exact Or.inl h
          · rcases List.mem_cons.mp hq with hq | hq
            · rw [Prod.mk.injEq] at hq
              exact Or.inl (hq.2 ▸ hu)
            · exact Or.inr ⟨q, hq⟩
      · rw [if_neg hu]
        have huV : u ∈ V := (hstV (p, u) (List.mem_cons_self _ _))
        apply ih _ (vis ++ [u]) (acc ++ [(p, u)]) ?_ ?_ ?_
        · unfold dfsMeasure at hfu ⊢
          rw [List.length_cons] at hfu
          rw [List.length_append, List.length_map]
          have hstep := filter_unvisited_step hndV huV hu
            (fun v => 1 + (neighborsIn M v).length)
          omega
        · intro pu hpu
          rcases List.mem_append.mp hpu with hpu | hpu
          · rw [List.mem_map] at hpu
            obtain ⟨v, hv, hvu⟩ := hpu
            subst hvu
            rcases mem_neighborsIn.mp hv with h | h
            · exact (hM _ h).2
            · exact (hM _ h).1
          · exact hstV pu (List.mem_cons_of_mem _ hpu)
        · intro x hx y hy
          rcases List.mem_append.mp hx with hx | hx
          · rcases hCL x hx y hy with h | ⟨q, hq⟩
            · exact Or.inl (List.mem_append_left _ h)
            · rcases List.mem_cons.mp hq with hq | hq
              · rw [Prod.mk.injEq] at hq
                exact Or.inl (List.mem_append_right _
                  (List.mem_singleton.mpr hq.2))
              · exact Or.inr ⟨q, List.mem_append_right _ hq⟩
          · rw [List.mem_singleton] at hx
            subst hx
            refine Or.inr ⟨x, List.mem_append_left _ ?_⟩
            rw [List.mem_map]
            exact ⟨y, mem_neighborsIn.mpr hy, rfl⟩

/-! ## DFS: fuel bound -/

theorem sum_map_add_distrib (V : List Int) (f g : Int → Nat) :
    (V.map (fun v => f v + g v)).sum = (V.map f).sum + (V.map g).sum := by
  induction V with
  | nil => rfl
  | cons a V ih =>
    rw [List.map_cons, List.sum_cons, List.map_cons, List.sum_cons,
      List.map_cons, List.sum_cons, ih]
    omega

theorem sum_if_eq_count (V : List Int) (x : Int) :
    (V.map (fun v => if x = v then 1 else 0)).sum = V.count x := by
  induction V with
  | nil => rfl
  | cons a V ih =>
    rw [List.map_cons, List.sum_cons, ih, List.count_cons]
    by_cases h : x = a
    · rw [if_pos h, if_pos (by exact beq_iff_eq.mpr h.symm)]
      omega
    · rw [if_neg h, if_neg (by
        intro hh
        exact h (beq_iff_eq.mp hh).symm)]
      omega

theorem sum_deg_le (M : List (Int × Int)) (V : List Int) (hnd : V.Nodup) :
    (V.map (fun v => (neighborsIn M v).length)).sum ≤ 2 * M.length := by
  induction M with
  | nil =>
    have h : ∀ v ∈ V, (neighborsIn ([] : List (Int × Int)) v).length = 0 := by
      intro v _
      rfl
    rw [List.map_congr_left h]
    simp
  | cons e M ih =>
    have hpt : ∀ v ∈ V, (neighborsIn (e :: M) v).length ≤
        ((if e.1 = v then 1 else 0) + (if e.2 = v then 1 else 0)) +
          (neighborsIn M v).length := by
      intro v _
      rw [neighborsIn_cons, List.length_append]
      by_cases h1 : e.1 = v
      · rw [if_pos h1, if_pos h1]
        by_cases h2 : e.2 = v <;> simp [h2]
      · rw [if_neg h1, if_neg h1]
        by_cases h2 : e.2 = v <;> simp [h2]
    have hle := List.sum_le_sum hpt
    rw [sum_map_add_distrib, sum_map_add_distrib,
      sum_if_eq_count, sum_if_eq_count] at hle
    have hc1 : V.count e.1 ≤ 1 := List.nodup_iff_count_le_one.mp hnd e.1
    have hc2 : V.count e.2 ≤ 1 := List.nodup_iff_count_le_one.mp hnd e.2
    rw [List.length_cons]
    omega

theorem sum_ones (V : List Int) : (V.map (fun _ => (1 : Nat))).sum = V.length := by
  induction V with
  | nil => rfl
  | cons a V ih =>
    rw [List.map_cons, List.sum_cons, ih, List.length_cons]
    omega

theorem sum_filter_le (V : List Int) (p : Int → Bool) (w : Int → Nat) :
    ((V.filter p).map w).sum ≤ (V.map w).sum := by
  induction V with
  | nil => simp
  | cons a V ih =>
    rw [List.filter_cons, List.map_cons, List.sum_cons]
    by_cases h : p a = true
    · rw [if_pos h, List.map_cons, List.sum_cons]
      omega
    · rw [if_neg h]
      omega

theorem dfsMeasure_init_le (M : List (Int × Int)) (V : List Int) (root : Int)
    (hnd : V.Nodup) (hroot : root ∈ V) :
    dfsMeasure M V [root] ((neighborsIn M root).map (fun v => (root, v))) ≤
      dfsFuel V M := by
  unfold dfsMeasure dfsFuel
  rw [List.length_map]
  have hstep := filter_unvisited_step hnd hroot
    (List.not_mem_nil root) (fun v => 1 + (neighborsIn M v).length)
  rw [List.nil_append] at hstep
  have hall : V.filter (fun v => ¬ v ∈ ([] : List Int)) = V := by
    apply List.filter_eq_self.mpr
    intro v _
    simp
  rw [hall] at hstep
  have hsum : (V.map (fun v => 1 + (neighborsIn M v).length)).sum =
      (V.map (fun _ => 1)).sum +
        (V.map (fun v => (neighborsIn M v).length)).sum :=
    sum_map_add_distrib V _ _
  have hones := sum_ones V
  have hdeg := sum_deg_le M V hnd
  omega

/-- Everything the healing proof needs about `nx.dfs_edges`:
tree edges are graph edges; every node is visited at most once
(distinct children, the root is no child); parents precede their children
in visit order; every visited node is connected to the root through the
tree; and every node reachable from the root is visited. -/
theorem dfsTree_spec (V : List Int) (M : List (Int × Int)) (root : Int)
    (hnd : V.Nodup) (hM : ∀ e ∈ M, e.1 ∈ V ∧ e.2 ∈ V) (hroot : root ∈ V) :
    (∀ pu ∈ dfsTree V M root, adjIn M pu.1 pu.2) ∧
    (root :: (dfsTree V M root).map (·.2)).Nodup ∧
    (∀ x ∈ root :: (dfsTree V M root).map (·.2), x ∈ V) ∧
    (∀ pu ∈ dfsTree V M root,
      [pu.1, pu.2].Sublist (root :: (dfsTree V M root).map (·.2))) ∧
    (∀ x ∈ root :: (dfsTree V M root).map (·.2),
      Conn (dfsTree V M root) root x) ∧
    (∀ y, Conn M root y → y ∈ root :: (dfsTree V M root).map (·.2)) := by
  have hst0 : ∀ pu ∈ (neighborsIn M root).map (fun v => (root, v)),
      pu.1 ∈ ([root] : List Int) ∧ adjIn M pu.1 pu.2 ∧ pu.2 ∈ V := by
    intro pu hpu
    rw [List.mem_map] at hpu
    obtain ⟨v, hv, hvu⟩ := hpu
    subst hvu
    have hadj : adjIn M root v := mem_neighborsIn.mp hv
    refine ⟨List.mem_singleton.mpr rfl, hadj, ?_⟩
    rcases hadj with h | h
    · exact (hM _ h).2
    · exact (hM _ h).1
  have hconn0 : ∀ x ∈ ([root] : List Int),
      Conn ([] : List (Int × Int)) root x := by
    intro x hx
    rw [List.mem_singleton] at hx
    rw [hx]
    exact Conn.refl root
  obtain ⟨ext, h1, h2, h3, h4, h5, h6, h7⟩ :=
    dfsLoop_sound M V root hM (dfsFuel V M)
      ((neighborsIn M root).map (fun v => (root, v))) [root] []
      hst0 (List.nodup_singleton root) (by
        intro x hx
        rw [List.mem_singleton] at hx
        exact hx ▸ hroot) hconn0
  have hT : dfsTree V M root = ext := by
    unfold dfsTree
    rw [h2, List.nil_append]
  have hshape : ([root] : List Int) ++ ext.map (·.2) = root :: ext.map (·.2) :=
    List.singleton_append
  rw [hT]
  rw [hshape] at h4 h5 h6 h7
  have hclosed := dfsLoop_closed M V hnd hM (dfsFuel V M)
    ((neighborsIn M root).map (fun v => (root, v))) [root] []
    (dfsMeasure_init_le M V root hnd hroot)
    (fun pu hpu => (hst0 pu hpu).2.2)
    (by
      intro x hx y hy
      rw [List.mem_singleton] at hx
      subst hx
      refine Or.inr ⟨x, ?_⟩
      rw [List.mem_map]
      exact ⟨y, mem_neighborsIn.mpr hy, rfl⟩)
  rw [h1, hshape] at hclosed
  refine ⟨fun pu hpu => h3 pu hpu, by rw [← hshape]; exact h4, h5, h6, ?_, ?_⟩
  · intro x hx
    have := h7 x hx
    rwa [List.nil_append] at this
  · intro y hy
    induction hy with
    | refl => exact List.mem_cons_self _ _
    | tail hab hadj ihy => exact hclosed _ ihy _ hadj

/-! ## Skeleton sorting and row lookup -/

theorem sortSkeleton_perm (df : List Node) : (sortSkeleton df).Perm df :=
  List.perm_insertionSort _ df

theorem sortSkeleton_sorted (df : List Node) :
    (sortSkeleton df).Sorted (fun a b => a.rowId ≤ b.rowId) := by
  haveI : IsTotal Node (fun a b => a.rowId ≤ b.rowId) :=
    ⟨fun a b => Int.le_total a.rowId b.rowId⟩
  haveI : IsTrans Node (fun a b => a.rowId ≤ b.rowId) :=
    ⟨fun _ _ _ hab hbc => le_trans hab hbc⟩
  exact List.sorted_insertionSort _ df

theorem nodeIds_sortSkeleton_perm (df : List Node) :
    (nodeIds (sortSkeleton df)).Perm (nodeIds df) :=
  (sortSkeleton_perm df).map _

/-- With unique ids, two rows carrying the same id are the same row. -/
theorem row_unique {df : List Node} (hnd : (nodeIds df).Nodup) :
    ∀ r ∈ df, ∀ r' ∈ df, r.rowId = r'.rowId → r = r' := by
  induction df with
  | nil => intro r hr; simp at hr
  | cons d df ih =>
    unfold nodeIds at hnd
    rw [List.map_cons, List.nodup_cons] at hnd
    intro r hr r' hr' heq
    rcases List.mem_cons.mp hr with hr | hr <;>
      rcases List.mem_cons.mp hr' with hr' | hr'
    · rw [hr, hr']
    · exfalso
      apply hnd.1
      rw [List.mem_map]
      exact ⟨r', hr', by rw [← heq, hr]⟩
    · exfalso
      apply hnd.1
      rw [List.mem_map]
      exact ⟨r, hr, by rw [heq, hr']⟩
    · exact ih hnd.2 r hr r' hr' heq

/-- The stored link of a present row, under unique ids. -/
theorem linkOf_row {df : List Node} (hnd : (nodeIds df).Nodup)
    {r : Node} (hr : r ∈ df) : linkOf df r.rowId = r.link := by
  unfold linkOf
  cases hfind : df.find? (fun q => q.rowId == r.rowId) with
  | none =>
    exfalso
    have := List.find?_eq_none.mp hfind r hr
    simp at this
  | some q =>
    have hq : q ∈ df := List.mem_of_find?_eq_some hfind
    have hqid := List.find?_some hfind
    have heq : q = r := row_unique hnd q hq r hr (by simpa using hqid)
    rw [heq]

/-! ## firstDedup -/

theorem firstDedup_go_mem (l : List Int) :
    ∀ (acc : List Int) (x : Int),
      (x ∈ l.foldl (fun acc x => if x ∈ acc then acc else acc ++ [x]) acc ↔
        x ∈ acc ∨ x ∈ l) := by
  induction l with
  | nil =>
    intro acc x
    simp
  | cons a l ih =>
    intro acc x
    rw [List.foldl_cons]
    by_cases ha : a ∈ acc
    · rw [if_pos ha, ih]
      constructor
      · rintro (h | h)
        · exact Or.inl h
        · exact Or.inr (List.mem_cons_of_mem _ h)
      · rintro (h | h)
        · exact Or.inl h
        · rcases List.mem_cons.mp h with h | h
          · exact Or.inl (h ▸ ha)
          · exact Or.inr h
    · rw [if_neg ha, ih]
      rw [List.mem_append, List.mem_singleton, List.mem_cons]
      tauto

theorem firstDedup_go_nodup (l : List Int) :
    ∀ (acc : List Int), acc.Nodup →
      (l.foldl (fun acc x => if x ∈ acc then acc else acc ++ [x]) acc).Nodup := by
  induction l with
  | nil =>
    intro acc h
    simpa using h
  | cons a l ih =>
    intro acc hacc
    rw [List.foldl_cons]
    by_cases ha : a ∈ acc
    · rw [if_pos ha]
      exact ih acc hacc
    · rw [if_neg ha]
      apply ih
      rw [List.nodup_append]
      refine ⟨hacc, List.nodup_singleton a, ?_⟩
      intro x hx
      rw [List.mem_singleton]
      intro hxa
      exact ha (hxa ▸ hx)

theorem mem_firstDedup {l : List Int} {x : Int} :
    x ∈ firstDedup l ↔ x ∈ l := by
  unfold firstDedup
  rw [firstDedup_go_mem]
  simp

theorem firstDedup_nodup (l : List Int) : (firstDedup l).Nodup :=
  firstDedup_go_nodup l [] (List.nodup_nil)

theorem firstDedup_toFinset (l : List Int) :
    (firstDedup l).toFinset = l.toFinset := by
  ext x
  rw [List.mem_toFinset, List.mem_toFinset, mem_firstDedup]

theorem firstDedup_length (l : List Int) :
    (firstDedup l).length = l.toFinset.card := by
  rw [← firstDedup_toFinset, List.toFinset_card_of_nodup (firstDedup_nodup l)]

theorem firstDedup_go_eq_self (l : List Int) :
    ∀ (acc : List Int), (acc ++ l).Nodup →
      l.foldl (fun acc x => if x ∈ acc then acc else acc ++ [x]) acc =
        acc ++ l := by
  induction l with
  | nil =>
    intro acc _
    rw [List.foldl_nil, List.append_nil]
  | cons a l ih =>
    intro acc hacc
    rw [List.foldl_cons]
    have hna : a ∉ acc := by
      intro ha
      rw [List.nodup_append] at hacc
      exact hacc.2.2 ha (List.mem_cons_self _ _)
    rw [if_neg hna]
    have := ih (acc ++ [a]) (by
      rw [List.append_assoc, List.singleton_append]
      exact hacc)
    rw [this, List.append_assoc, List.singleton_append]

theorem firstDedup_eq_self {l : List Int} (h : l.Nodup) : firstDedup l = l := by
  unfold firstDedup
  have := firstDedup_go_eq_self l [] (by simpa using h)
  rwa [List.nil_append] at this

/-! ## WellFormed under sorting -/

theorem nodeIds_perm {df df' : List Node} (hp : df.Perm df') :
    (nodeIds df).Perm (nodeIds df') := by
  unfold nodeIds
  exact hp.map _

theorem mem_nodeIds {df : List Node} {v : Int} :
    v ∈ nodeIds df ↔ ∃ r ∈ df, r.rowId = v := by
  unfold nodeIds
  rw [List.mem_map]

theorem linkOf_not_mem {df : List Node} {v : Int} (h : v ∉ nodeIds df) :
    linkOf df v = -1 := by
  unfold linkOf
  have hnone : df.find? (fun r => r.rowId == v) = none := by
    rw [List.find?_eq_none]
    intro r hr hbeq
    exact h (by
      rw [beq_iff_eq] at hbeq
      exact hbeq ▸ List.mem_map_of_mem _ hr)
  rw [hnone]

theorem linkOf_perm {df df' : List Node} (hp : df.Perm df')
    (hnd : (nodeIds df).Nodup) (v : Int) : linkOf df v = linkOf df' v := by
  have hnd' : (nodeIds df').Nodup := (nodeIds_perm hp).nodup_iff.mp hnd
  by_cases hv : v ∈ nodeIds df
  · rw [mem_nodeIds] at hv
    obtain ⟨r, hr, hrv⟩ := hv
    rw [← hrv, linkOf_row hnd hr, linkOf_row hnd' (hp.mem_iff.mp hr)]
  · have hv' : v ∉ nodeIds df' := fun hmem =>
      hv ((nodeIds_perm hp).mem_iff.mpr hmem)
    rw [linkOf_not_mem hv, linkOf_not_mem hv']

theorem chainHits_perm {df df' : List Node} (hp : df.Perm df')
    (hnd : (nodeIds df).Nodup) :
    ∀ (fuel : Nat) (v : Int), chainHits df fuel v = chainHits df' fuel v := by
  intro fuel
  induction fuel with
  | zero => intro v; rfl
  | succ fuel ih =>
    intro v
    show (v == -1 || chainHits df fuel (linkOf df v)) =
      (v == -1 || chainHits df' fuel (linkOf df' v))
    rw [linkOf_perm hp hnd v, ih]

theorem WellFormed_perm {df df' : List Node} (hp : df.Perm df')
    (hwf : WellFormed df) : WellFormed df' := by
  obtain ⟨hnd, hneg, hlink, hchain⟩ := hwf
  have hidsp : (nodeIds df).Perm (nodeIds df') := nodeIds_perm hp
  refine ⟨hidsp.nodup_iff.mp hnd, ?_, ?_, ?_⟩
  · intro r hr
    exact hneg r (hp.mem_iff.mpr hr)
  · intro r hr
    rcases hlink r (hp.mem_iff.mpr hr) with h | h
    · exact Or.inl h
    · exact Or.inr (hidsp.mem_iff.mp h)
  · intro r hr
    rw [← chainHits_perm hp hnd, ← hp.length_eq]
    exact hchain r (hp.mem_iff.mpr hr)

theorem WellFormed_sortSkeleton {df0 : List Node} (hwf : WellFormed df0) :
    WellFormed (sortSkeleton df0) :=
  WellFormed_perm (sortSkeleton_perm df0).symm hwf

/-! ## Graph construction under well-formed input -/

theorem sortByIdLink_eq_self {df : List Node}
    (hs : df.Sorted (fun a b => a.rowId ≤ b.rowId))
    (hnd : (nodeIds df).Nodup) : sortByIdLink df = df := by
  apply List.Sorted.insertionSort_eq
  have hne : df.Pairwise (fun a b => a.rowId ≠ b.rowId) := by
    unfold nodeIds at hnd
    rw [List.nodup_iff_sublist] at hnd
    exact (List.pairwise_map.mp (List.nodup_iff_sublist.mpr hnd))
  exact (hs.and hne).imp (fun h => Or.inl (lt_of_le_of_ne h.1 h.2))

theorem filterMap_edge_eq (l : List Node) :
    l.filterMap (fun r => if r.link = -1 then none else some (r.rowId, r.link)) =
      (l.filter (fun r => ¬ r.link = -1)).map (fun r => (r.rowId, r.link)) := by
  induction l with
  | nil => rfl
  | cons r l ih =>
    rw [List.filterMap_cons, List.filter_cons]
    by_cases h : r.link = -1
    · rw [if_pos h]
      have hc : (decide ¬(r.link = -1)) = false := by simp [h]
      rw [hc, if_neg Bool.false_ne_true]
      exact ih
    · rw [if_neg h]
      have hc : (decide ¬(r.link = -1)) = true := by simpa using h
      rw [hc, if_pos rfl, List.map_cons, ih]

theorem nxEdges_eq {df : List Node}
    (hs : df.Sorted (fun a b => a.rowId ≤ b.rowId))
    (hnd : (nodeIds df).Nodup) :
    nxEdges df = (df.filter (fun r => ¬ r.link = -1)).map
      (fun r => (r.rowId, r.link)) := by
  unfold nxEdges
  rw [sortByIdLink_eq_self hs hnd, filterMap_edge_eq]

theorem mem_nxEdges {df : List Node}
    (hs : df.Sorted (fun a b => a.rowId ≤ b.rowId))
    (hnd : (nodeIds df).Nodup) {e : Int × Int} :
    e ∈ nxEdges df ↔ ∃ r ∈ df, ¬ r.link = -1 ∧ e = (r.rowId, r.link) := by
  rw [nxEdges_eq hs hnd, List.mem_map]
  constructor
  · rintro ⟨r, hr, hre⟩
    rw [List.mem_filter] at hr
    exact ⟨r, hr.1, by simpa using hr.2, hre.symm⟩
  · rintro ⟨r, hr, hrl, hre⟩
    exact ⟨r, List.mem_filter.mpr ⟨hr, by simpa using hrl⟩, hre.symm⟩

theorem length_nxEdges {df : List Node}
    (hs : df.Sorted (fun a b => a.rowId ≤ b.rowId))
    (hnd : (nodeIds df).Nodup) :
    (nxEdges df).length = df.countP (fun r => ¬ r.link = -1) := by
  rw [nxEdges_eq hs hnd, List.length_map, ← List.countP_eq_length_filter]

theorem foldl_addNodes_id (E : List (Int × Int)) :
    ∀ (acc : List Int), (∀ e ∈ E, e.1 ∈ acc ∧ e.2 ∈ acc) →
      E.foldl (fun acc e =>
        let acc1 := if e.1 ∈ acc then acc else acc ++ [e.1]
        if e.2 ∈ acc1 then acc1 else acc1 ++ [e.2]) acc = acc := by
  induction E with
  | nil => intro acc _; rfl
  | cons e E ih =>
    intro acc hE
    rw [List.foldl_cons]
    have h1 := (hE e (List.mem_cons_self _ _)).1
    have h2 := (hE e (List.mem_cons_self _ _)).2
    have hstep : (let acc1 := if e.1 ∈ acc then acc else acc ++ [e.1]
        if e.2 ∈ acc1 then acc1 else acc1 ++ [e.2]) = acc := by
      simp only [if_pos h1, if_pos h2]
    rw [hstep]
    exact ih acc (fun f hf => hE f (List.mem_cons_of_mem _ hf))

theorem nxNodes_eq {df : List Node}
    (hs : df.Sorted (fun a b => a.rowId ≤ b.rowId))
    (hnd : (nodeIds df).Nodup)
    (hlink : ∀ r ∈ df, r.link = -1 ∨ r.link ∈ nodeIds df) :
    nxNodes df = nodeIds df := by
  unfold nxNodes
  have hids_sorted : (df.map (·.rowId)).Sorted (fun a b => a ≤ b) := by
    rw [List.Sorted, List.pairwise_map]
    exact hs
  rw [hids_sorted.insertionSort_eq]
  have hnd' : (df.map (·.rowId)).Nodup := hnd
  rw [firstDedup_eq_self hnd']
  exact foldl_addNodes_id (nxEdges df) _ (by
    intro e he
    rw [mem_nxEdges hs hnd] at he
    obtain ⟨r, hr, hrl, hre⟩ := he
    subst hre
    constructor
    · exact List.mem_map_of_mem _ hr
    · rcases hlink r hr with h | h
      · exact absurd h hrl
      · exact h)

/-! ## Parent chains: the parent forest has one root per component -/

/-- Follow parent links for at most `fuel` steps, stopping at a node whose
link is the sentinel. -/
def rootOf (df : List Node) : Nat → Int → Int
  | 0, v => v
  | fuel + 1, v => if linkOf df v = -1 then v else rootOf df fuel (linkOf df v)

theorem chainHits_mono {df : List Node} :
    ∀ {f : Nat} {v : Int}, chainHits df f v = true →
      ∀ {g : Nat}, f ≤ g → chainHits df g v = true := by
  intro f
  induction f with
  | zero =>
    intro v h g _
    have hv : v = -1 := by simpa [chainHits] using h
    subst hv
    cases g with
    | zero => rfl
    | succ g =>
      show ((-1 : Int) == -1 || _) = true
      simp
  | succ f ih =>
    intro v h g hg
    rw [show chainHits df (f + 1) v = (v == -1 || chainHits df f (linkOf df v))
      from rfl, Bool.or_eq_true] at h
    rcases h with h | h
    · cases g with
      | zero =>
        show (v == -1) = true
        exact h
      | succ g =>
        show (v == -1 || _) = true
        rw [h, Bool.true_or]
    · cases g with
      | zero => omega
      | succ g =>
        show (v == -1 || chainHits df g (linkOf df v)) = true
        rw [ih h (by omega), Bool.or_true]

theorem rootOf_root {df : List Node} {v : Int} (h : linkOf df v = -1) :
    ∀ fuel, rootOf df fuel v = v := by
  intro fuel
  cases fuel with
  | zero => rfl
  | succ fuel =>
    show (if linkOf df v = -1 then v else _) = v
    rw [if_pos h]

theorem rootOf_stable {df : List Node} :
    ∀ {f : Nat} {v : Int}, chainHits df f v = true → v ≠ -1 →
      ∀ {g : Nat}, f ≤ g → rootOf df g v = rootOf df f v := by
  intro f
  induction f with
  | zero =>
    intro v h hv _ _
    exact absurd (by simpa [chainHits] using h) hv
  | succ f ih =>
    intro v h hv g hg
    rw [show chainHits df (f + 1) v = (v == -1 || chainHits df f (linkOf df v))
      from rfl, Bool.or_eq_true] at h
    rcases h with h | h
    · exact absurd (by simpa using h) hv
    · by_cases hl : linkOf df v = -1
      · rw [rootOf_root hl, rootOf_root hl]
      · cases g with
        | zero => omega
        | succ g =>
          show (if linkOf df v = -1 then v else rootOf df g (linkOf df v)) =
            (if linkOf df v = -1 then v else rootOf df f (linkOf df v))
          rw [if_neg hl, if_neg hl]
          exact ih h hl (by omega)

/-- The canonical root of the fragment of `v`. -/
def Root (df : List Node) (v : Int) : Int := rootOf df (df.length + 1) v

theorem chainHits_of_mem {df : List Node} (hnd : (nodeIds df).Nodup)
    (hchain : ∀ r ∈ df, chainHits df df.length r.link = true)
    {v : Int} (hv : v ∈ nodeIds df) :
    chainHits df (df.length + 1) v = true := by
  obtain ⟨r, hr, hrv⟩ := mem_nodeIds.mp hv
  show (v == -1 || chainHits df df.length (linkOf df v)) = true
  rw [← hrv, linkOf_row hnd hr, hchain r hr, Bool.or_true]

theorem rootOf_props {df : List Node} (hnd : (nodeIds df).Nodup)
    (hneg : ∀ r ∈ df, r.rowId ≠ -1)
    (hlink : ∀ r ∈ df, r.link = -1 ∨ r.link ∈ nodeIds df) :
    ∀ (fuel : Nat) (v : Int), v ∈ nodeIds df → chainHits df fuel v = true →
      rootOf df fuel v ∈ nodeIds df ∧ linkOf df (rootOf df fuel v) = -1 := by
  intro fuel
  induction fuel with
  | zero =>
    intro v hv h
    have hv1 : v = -1 := by simpa [chainHits] using h
    obtain ⟨r, hr, hrv⟩ := mem_nodeIds.mp hv
    exact absurd (hrv.trans hv1) (hneg r hr)
  | succ fuel ih =>
    intro v hv h
    show (if linkOf df v = -1 then v else _) ∈ nodeIds df ∧
      linkOf df (if linkOf df v = -1 then v else _) = -1
    by_cases hl : linkOf df v = -1
    · rw [if_pos hl]
      exact ⟨hv, hl⟩
    · rw [if_neg hl]
      obtain ⟨r, hr, hrv⟩ := mem_nodeIds.mp hv
      have hlv : linkOf df v = r.link := by rw [← hrv, linkOf_row hnd hr]
      have hlvmem : linkOf df v ∈ nodeIds df := by
        rcases hlink r hr with hh | hh
        · exact absurd (hlv.trans hh) hl
        · exact hlv ▸ hh
      have hch : chainHits df fuel (linkOf df v) = true := by
        rw [show chainHits df (fuel + 1) v =
          (v == -1 || chainHits df fuel (linkOf df v)) from rfl,
          Bool.or_eq_true] at h
        rcases h with h | h
        · exact absurd (by simpa using h)
            (by rw [← hrv]; exact hneg r hr)
        · exact h
      exact ih (linkOf df v) hlvmem hch

theorem conn_rootOf {df : List Node} (hnd : (nodeIds df).Nodup)
    (hneg : ∀ r ∈ df, r.rowId ≠ -1)
    (hs : df.Sorted (fun a b => a.rowId ≤ b.rowId))
    (hlink : ∀ r ∈ df, r.link = -1 ∨ r.link ∈ nodeIds df) :
    ∀ (fuel : Nat) (v : Int), v ∈ nodeIds df → chainHits df fuel v = true →
      Conn (nxEdges df) v (rootOf df fuel v) := by
  intro fuel
  induction fuel with
  | zero =>
    intro v hv h
    have hv1 : v = -1 := by simpa [chainHits] using h
    obtain ⟨r, hr, hrv⟩ := mem_nodeIds.mp hv
    exact absurd (hrv.trans hv1) (hneg r hr)
  | succ fuel ih =>
    intro v hv h
    show Conn (nxEdges df) v (if linkOf df v = -1 then v else _)
    by_cases hl : linkOf df v = -1
    · rw [if_pos hl]
      exact .refl v
    · rw [if_neg hl]
      obtain ⟨r, hr, hrv⟩ := mem_nodeIds.mp hv
      have hlv : linkOf df v = r.link := by rw [← hrv, linkOf_row hnd hr]
      have hlvmem : linkOf df v ∈ nodeIds df := by
        rcases hlink r hr with hh | hh
        · exact absurd (hlv.trans hh) hl
        · exact hlv ▸ hh
      have hch : chainHits df fuel (linkOf df v) = true := by
        rw [show chainHits df (fuel + 1) v =
          (v == -1 || chainHits df fuel (linkOf df v)) from rfl,
          Bool.or_eq_true] at h
        rcases h with h | h
        · exact absurd (by simpa using h)
            (by rw [← hrv]; exact hneg r hr)
        · exact h
      have hedge : adjIn (nxEdges df) v (linkOf df v) := by
        left
        rw [mem_nxEdges hs hnd]
        exact ⟨r, hr, by rw [← hlv]; exact hl, by rw [hrv, hlv]⟩
      exact (Conn.single hedge).trans (ih (linkOf df v) hlvmem hch)

theorem nxEdges_mem_V {df : List Node}
    (hs : df.Sorted (fun a b => a.rowId ≤ b.rowId))
    (hnd : (nodeIds df).Nodup)
    (hlink : ∀ r ∈ df, r.link = -1 ∨ r.link ∈ nodeIds df) :
    ∀ e ∈ nxEdges df, e.1 ∈ nodeIds df ∧ e.2 ∈ nodeIds df := by
  intro e he
  rw [mem_nxEdges hs hnd] at he
  obtain ⟨r, hr, hrl, hre⟩ := he
  subst hre
  refine ⟨List.mem_map_of_mem _ hr, ?_⟩
  rcases hlink r hr with h | h
  · exact absurd h hrl
  · exact h

theorem Root_step {df : List Node} (hnd : (nodeIds df).Nodup)
    (hchain : ∀ r ∈ df, chainHits df df.length r.link = true)
    {v : Int} (hv : v ∈ nodeIds df) (hl : ¬ linkOf df v = -1) :
    Root df v = Root df (linkOf df v) := by
  unfold Root
  show (if linkOf df v = -1 then v else rootOf df df.length (linkOf df v)) = _
  rw [if_neg hl]
  obtain ⟨r, hr, hrv⟩ := mem_nodeIds.mp hv
  have hch : chainHits df df.length (linkOf df v) = true := by
    rw [← hrv, linkOf_row hnd hr]
    exact hchain r hr
  exact (rootOf_stable hch hl (by omega)).symm

theorem conn_imp_root_eq {df : List Node}
    (hs : df.Sorted (fun a b => a.rowId ≤ b.rowId))
    (hnd : (nodeIds df).Nodup)
    (hneg : ∀ r ∈ df, r.rowId ≠ -1)
    (hlink : ∀ r ∈ df, r.link = -1 ∨ r.link ∈ nodeIds df)
    (hchain : ∀ r ∈ df, chainHits df df.length r.link = true) :
    ∀ {a b : Int}, Conn (nxEdges df) a b → a ∈ nodeIds df →
      b ∈ nodeIds df ∧ Root df a = Root df b := by
  intro a b hconn
  induction hconn with
  | refl => intro ha; exact ⟨ha, rfl⟩
  | tail hab hadj ih =>
    rename_i b c
    intro ha
    obtain ⟨hb, hroot⟩ := ih ha
    rcases hadj with h | h
    · rw [mem_nxEdges hs hnd] at h
      obtain ⟨r, hr, hrl, hre⟩ := h
      rw [Prod.mk.injEq] at hre
      have hlb : linkOf df b = c := by
        rw [hre.1, linkOf_row hnd hr, hre.2]
      have hcmem : c ∈ nodeIds df := by
        rcases hlink r hr with hh | hh
        · exact absurd hh hrl
        · exact hre.2 ▸ hh
      have hlbne : ¬ linkOf df b = -1 := by
        rw [hlb, hre.2]
        exact hrl
      have hstep := Root_step hnd hchain hb hlbne
      rw [hlb] at hstep
      exact ⟨hcmem, hroot.trans hstep⟩
    · rw [mem_nxEdges hs hnd] at h
      obtain ⟨r, hr, hrl, hre⟩ := h
      rw [Prod.mk.injEq] at hre
      have hcmem : c ∈ nodeIds df := hre.1 ▸ List.mem_map_of_mem _ hr
      have hlc : linkOf df c = b := by
        rw [hre.1, linkOf_row hnd hr, hre.2]
      have hlcne : ¬ linkOf df c = -1 := by
        rw [hlc, hre.2]
        exact hrl
      have hstep := Root_step hnd hchain hcmem hlcne
      rw [hlc] at hstep
      exact ⟨hcmem, hroot.trans hstep.symm⟩

theorem root_eq_imp_conn {df : List Node}
    (hs : df.Sorted (fun a b => a.rowId ≤ b.rowId))
    (hnd : (nodeIds df).Nodup)
    (hneg : ∀ r ∈ df, r.rowId ≠ -1)
    (hlink : ∀ r ∈ df, r.link = -1 ∨ r.link ∈ nodeIds df)
    (hchain : ∀ r ∈ df, chainHits df df.length r.link = true) :
    ∀ {a b : Int}, a ∈ nodeIds df → b ∈ nodeIds df →
      Root df a = Root df b → Conn (nxEdges df) a b := by
  intro a b ha hb hr
  have hca := conn_rootOf hnd hneg hs hlink (df.length + 1) a ha
    (chainHits_of_mem hnd hchain ha)
  have hcb := conn_rootOf hnd hneg hs hlink (df.length + 1) b hb
    (chainHits_of_mem hnd hchain hb)
  unfold Root at hr
  rw [hr] at hca
  exact hca.trans hcb.symm

theorem countP_link_split (df : List Node) :
    df.countP (fun r => ¬ r.link = -1) + df.countP (fun r => r.link = -1) =
      df.length := by
  induction df with
  | nil => rfl
  | cons r df ih =>
    rw [List.countP_cons, List.countP_cons, List.length_cons]
    by_cases h : r.link = -1
    · have h1 : (decide ¬(r.link = -1)) = false := by simp [h]
      have h2 : (decide (r.link = -1)) = true := by simpa using h
      rw [h1, h2, if_neg Bool.false_ne_true, if_pos rfl]
      omega
    · have h1 : (decide ¬(r.link = -1)) = true := by simpa using h
      have h2 : (decide (r.link = -1)) = false := by simpa using h
      rw [h1, h2, if_neg Bool.false_ne_true, if_pos rfl]
      omega

theorem numComps_eq_roots {df : List Node}
    (hs : df.Sorted (fun a b => a.rowId ≤ b.rowId))
    (hnd : (nodeIds df).Nodup)
    (hneg : ∀ r ∈ df, r.rowId ≠ -1)
    (hlink : ∀ r ∈ df, r.link = -1 ∨ r.link ∈ nodeIds df)
    (hchain : ∀ r ∈ df, chainHits df df.length r.link = true) :
    numComps (nodeIds df) (nxEdges df) = df.countP (fun r => r.link = -1) := by
  unfold numComps
  rw [labels_eq_map_lookup (by rw [keys_compMap]; exact hnd), keys_compMap]
  have hE := nxEdges_mem_V hs hnd hlink
  have hker : ∀ a ∈ nodeIds df, ∀ b ∈ nodeIds df,
      (lookupLab (compMap (nodeIds df) (nxEdges df)) a =
        lookupLab (compMap (nodeIds df) (nxEdges df)) b ↔
        Root df a = Root df b) := by
    intro a ha b hb
    rw [lookup_compMap_iff hE ha hb]
    constructor
    · intro h
      exact (conn_imp_root_eq hs hnd hneg hlink hchain h ha).2
    · intro h
      exact root_eq_imp_conn hs hnd hneg hlink hchain ha hb h
  rw [card_map_toFinset_eq hker]
  have hset : ((nodeIds df).map (Root df)).toFinset =
      ((df.filter (fun r => r.link = -1)).map (·.rowId)).toFinset := by
    ext x
    rw [List.mem_toFinset, List.mem_toFinset, List.mem_map, List.mem_map]
    constructor
    · rintro ⟨v, hv, hvx⟩
      obtain ⟨hmem, hlr⟩ := rootOf_props hnd hneg hlink (df.length + 1) v hv
        (chainHits_of_mem hnd hchain hv)
      obtain ⟨r, hr, hrv⟩ := mem_nodeIds.mp hmem
      refine ⟨r, ?_, by rw [hrv]; exact hvx⟩
      rw [List.mem_filter]
      refine ⟨hr, ?_⟩
      have : r.link = -1 := by
        rw [← linkOf_row hnd hr, hrv]
        exact hlr
      simpa using this
    · rintro ⟨r, hr, hrx⟩
      rw [List.mem_filter] at hr
      have hrl : r.link = -1 := by simpa using hr.2
      have hx : x ∈ nodeIds df := hrx ▸ List.mem_map_of_mem _ hr.1
      refine ⟨x, hx, ?_⟩
      unfold Root
      apply rootOf_root
      rw [← hrx, linkOf_row hnd hr.1]
      exact hrl
  rw [hset]
  have hnodup : ((df.filter (fun r => r.link = -1)).map (·.rowId)).Nodup := by
    have hsub : ((df.filter (fun r => r.link = -1)).map (·.rowId)).Sublist
        (df.map (·.rowId)) := (List.filter_sublist df).map _
    exact List.Nodup.sublist hsub hnd
  rw [List.toFinset_card_of_nodup hnodup, List.length_map,
    ← List.countP_eq_length_filter]

/-- Under well-formedness the intra-fragment edges form a spanning forest:
one fewer edge than vertices in every fragment. -/
theorem forest_count {df : List Node}
    (hs : df.Sorted (fun a b => a.rowId ≤ b.rowId))
    (hnd : (nodeIds df).Nodup)
    (hneg : ∀ r ∈ df, r.rowId ≠ -1)
    (hlink : ∀ r ∈ df, r.link = -1 ∨ r.link ∈ nodeIds df)
    (hchain : ∀ r ∈ df, chainHits df df.length r.link = true) :
    (nxEdges df).length + numComps (nodeIds df) (nxEdges df) =
      (nodeIds df).length := by
  rw [length_nxEdges hs hnd, numComps_eq_roots hs hnd hneg hlink hchain]
  have hsplit := countP_link_split df
  have hlen : (nodeIds df).length = df.length := List.length_map _ _
  omega

/-! ## Components as lists -/

theorem componentsOf_length (V : List Int) (E : List (Int × Int)) :
    (componentsOf V E).length = numComps V E := by
  unfold componentsOf numComps
  rw [List.length_map, firstDedup_length]

theorem mem_componentsOf {V : List Int} {E : List (Int × Int)} {c : List Int} :
    c ∈ componentsOf V E ↔ ∃ l ∈ (compMap V E).map (·.2),
      c = V.filter (fun v => lookupLab (compMap V E) v = l) := by
  unfold componentsOf
  rw [List.mem_map]
  constructor
  · rintro ⟨l, hl, hc⟩
    exact ⟨l, mem_firstDedup.mp hl, hc.symm⟩
  · rintro ⟨l, hl, hc⟩
    exact ⟨l, mem_firstDedup.mpr hl, hc.symm⟩

theorem componentsOf_nonempty {V : List Int} {E : List (Int × Int)}
    (hnd : V.Nodup) :
    ∀ c ∈ componentsOf V E, ∃ v ∈ V, v ∈ c := by
  intro c hc
  rw [mem_componentsOf] at hc
  obtain ⟨l, hl, hc⟩ := hc
  have hkeys := keys_compMap V E
  have hknd : ((compMap V E).map (·.1)).Nodup := by
    rw [hkeys]
    exact hnd
  rw [labels_eq_map_lookup hknd, hkeys, List.mem_map] at hl
  obtain ⟨v, hv, hvl⟩ := hl
  refine ⟨v, hv, ?_⟩
  rw [hc, List.mem_filter]
  exact ⟨hv, by simpa using hvl⟩

theorem mem_comp_iff {V : List Int} {E : List (Int × Int)} {c : List Int}
    {l : Int} (hc : c = V.filter (fun v => lookupLab (compMap V E) v = l)) :
    ∀ v, (v ∈ c ↔ v ∈ V ∧ lookupLab (compMap V E) v = l) := by
  intro v
  rw [hc, List.mem_filter]
  constructor
  · rintro ⟨h1, h2⟩
    exact ⟨h1, by simpa using h2⟩
  · rintro ⟨h1, h2⟩
    exact ⟨h1, by simpa using h2⟩

theorem length_filter_eq_iff_all {l : List Int} {p : Int → Bool} :
    (l.filter p).length = l.length ↔ ∀ a ∈ l, p a = true := by
  constructor
  · induction l with
    | nil =>
      intro _ a ha
      simp at ha
    | cons x l ih =>
      rw [List.filter_cons]
      intro h a ha
      by_cases hx : p x = true
      · rw [if_pos hx, List.length_cons, List.length_cons] at h
        rcases List.mem_cons.mp ha with ha | ha
        · exact ha ▸ hx
        · exact ih (by omega) a ha
      · rw [if_neg hx, List.length_cons] at h
        have hle := List.length_filter_le p l
        omega
  · intro h
    rw [List.filter_eq_self.mpr h]

/-- A component of full size means everything carries its label. -/
theorem comp_full_all {V : List Int} {E : List (Int × Int)} (hnd : V.Nodup)
    {c : List Int} (hc : c ∈ componentsOf V E) (hlen : c.length = V.length) :
    ∀ a ∈ V, ∀ b ∈ V,
      lookupLab (compMap V E) a = lookupLab (compMap V E) b := by
  rw [mem_componentsOf] at hc
  obtain ⟨l, _, hcl⟩ := hc
  have hall : ∀ v ∈ V, lookupLab (compMap V E) v = l := by
    subst hcl
    intro v hv
    have := length_filter_eq_iff_all.mp hlen v hv
    simpa using this
  intro a ha b hb
  rw [hall a ha, hall b hb]

/-- Under total connectivity there is a full-size component. -/
theorem comp_full_of_connected {V : List Int} {E : List (Int × Int)}
    (hnd : V.Nodup) (hne : V ≠ [])
    (hE : ∀ e ∈ E, e.1 ∈ V ∧ e.2 ∈ V)
    (hconn : ∀ a ∈ V, ∀ b ∈ V, Conn E a b) :
    ∃ c ∈ componentsOf V E, c.length = V.length := by
  obtain ⟨v0, V', hV0⟩ : ∃ v0 V', V = v0 :: V' := by
    cases V with
    | nil => exact absurd rfl hne
    | cons v0 V' => exact ⟨v0, V', rfl⟩
  have hv0 : v0 ∈ V := hV0 ▸ List.mem_cons_self _ _
  set m := compMap V E with hm
  have hl0 : lookupLab m v0 ∈ m.map (·.2) :=
    lookupLab_mem_labels (by rw [keys_compMap]; exact hv0)
  refine ⟨V.filter (fun v => lookupLab m v = lookupLab m v0), ?_, ?_⟩
  · rw [mem_componentsOf]
    exact ⟨lookupLab m v0, hl0, rfl⟩
  · rw [length_filter_eq_iff_all]
    intro v hv
    have : lookupLab m v = lookupLab m v0 :=
      (lookup_compMap_iff hE hv hv0).mpr (hconn v hv v0 hv0)
    simpa using this

/-! ## Minima and the stitching stage -/

theorem foldl_min_le_init (xs : List Nat) : ∀ a : Nat, xs.foldl min a ≤ a := by
  induction xs with
  | nil => intro a; exact le_refl a
  | cons x xs ih =>
    intro a
    rw [List.foldl_cons]
    exact le_trans (ih (min a x)) (min_le_left a x)

theorem foldl_min_le_mem (xs : List Nat) :
    ∀ (a : Nat), ∀ x ∈ xs, xs.foldl min a ≤ x := by
  induction xs with
  | nil => intro a x hx; simp at hx
  | cons y xs ih =>
    intro a x hx
    rw [List.foldl_cons]
    rcases List.mem_cons.mp hx with hx | hx
    · subst hx
      exact le_trans (foldl_min_le_init xs (min a x)) (min_le_right a x)
    · exact ih (min a y) x hx

theorem foldl_min_mem (xs : List Nat) :
    ∀ a : Nat, xs.foldl min a = a ∨ xs.foldl min a ∈ xs := by
  induction xs with
  | nil => intro a; exact Or.inl rfl
  | cons x xs ih =>
    intro a
    rw [List.foldl_cons]
    rcases ih (min a x) with h | h
    · rw [h]
      rcases min_choice a x with h' | h'
      · exact Or.inl h'
      · rw [h']
        exact Or.inr (List.mem_cons_self _ _)
    · exact Or.inr (List.mem_cons_of_mem _ h)

theorem listMin_le {l : List Nat} : ∀ x ∈ l, listMin l ≤ x := by
  cases l with
  | nil => intro x hx; simp at hx
  | cons y l =>
    intro x hx
    show l.foldl min y ≤ x
    rcases List.mem_cons.mp hx with hx | hx
    · subst hx
      exact foldl_min_le_init l x
    · exact foldl_min_le_mem l y x hx

theorem listMin_mem {l : List Nat} (h : l ≠ []) : listMin l ∈ l := by
  cases l with
  | nil => exact absurd rfl h
  | cons y l =>
    show l.foldl min y ∈ y :: l
    rcases foldl_min_mem l y with h' | h'
    · rw [h']
      exact List.mem_cons_self _ _
    · exact List.mem_cons_of_mem _ h'

theorem argmin_lt_length {l : List Nat} (h : l ≠ []) : argmin l < l.length := by
  unfold argmin
  apply List.findIdx_lt_length_of_exists
  exact ⟨listMin l, listMin_mem h, by simp⟩

theorem getElem_argmin {l : List Nat} (h : argmin l < l.length) :
    l[argmin l] = listMin l := by
  have := List.findIdx_getElem (p := fun d => d == listMin l)
    (w := show l.findIdx (fun d => d == listMin l) < l.length from h)
  simpa using this

theorem getD_lt_eq {α : Type} {l : List α} {j : Nat} (d : α) (h : j < l.length) :
    l.getD j d = l[j] := by
  rw [List.getD_eq_getElem?_getD, List.getElem?_eq_getElem h]
  rfl

theorem getD_mem_lt {α : Type} {l : List α} {j : Nat} (d : α)
    (h : j < l.length) : l.getD j d ∈ l := by
  rw [getD_lt_eq d h]
  exact List.getElem_mem h

theorem getD_map_lt {α β : Type} {l : List α} {f : α → β} {j : Nat}
    (d : β) (d' : α) (h : j < l.length) :
    (l.map f).getD j d = f (l.getD j d') := by
  rw [getD_lt_eq d (by rw [List.length_map]; exact h), getD_lt_eq d' h,
    List.getElem_map]

theorem getD_argmin_eq {l : List Nat} (h : l ≠ []) (d : Nat) :
    l.getD (argmin l) d = listMin l := by
  rw [getD_lt_eq d (argmin_lt_length h)]
  exact getElem_argmin (argmin_lt_length h)

theorem mem_combPairs {l : List α} :
    ∀ {x y : α}, (x, y) ∈ combPairs l → x ∈ l ∧ y ∈ l := by
  induction l with
  | nil => intro x y h; simp [combPairs] at h
  | cons a l ih =>
    intro x y h
    unfold combPairs at h
    rcases List.mem_append.mp h with h | h
    · rw [List.mem_map] at h
      obtain ⟨b, hb, hxy⟩ := h
      rw [Prod.mk.injEq] at hxy
      exact ⟨hxy.1 ▸ List.mem_cons_self _ _,
        hxy.2 ▸ List.mem_cons_of_mem _ hb⟩
    · obtain ⟨hx, hy⟩ := ih h
      exact ⟨List.mem_cons_of_mem _ hx, List.mem_cons_of_mem _ hy⟩

theorem combPairs_cover {l : List α} :
    ∀ {x y : α}, x ∈ l → y ∈ l → x ≠ y →
      (x, y) ∈ combPairs l ∨ (y, x) ∈ combPairs l := by
  induction l with
  | nil => intro x y hx _ _; simp at hx
  | cons a l ih =>
    intro x y hx hy hxy
    unfold combPairs
    rcases List.mem_cons.mp hx with hx | hx <;>
      rcases List.mem_cons.mp hy with hy | hy
    · exact absurd (hx.trans hy.symm) hxy
    · left
      apply List.mem_append_left
      rw [List.mem_map]
      exact ⟨y, hy, by rw [hx]⟩
    · right
      apply List.mem_append_left
      rw [List.mem_map]
      exact ⟨x, hx, by rw [hy]⟩
    · rcases ih hx hy hxy with h | h
      · exact Or.inl (List.mem_append_right _ h)
      · exact Or.inr (List.mem_append_right _ h)

theorem combPairs_length (l : List α) :
    (combPairs l).length = Nat.choose l.length 2 := by
  induction l with
  | nil => rfl
  | cons a l ih =>
    unfold combPairs
    rw [List.length_append, List.length_map, ih, List.length_cons,
      Nat.choose_succ_succ, Nat.choose_one_right]

theorem listMin_map_argmin {α : Type} [Inhabited α] (f : α → Nat)
    {l : List α} (h : l ≠ []) :
    f (l.getD (argmin (l.map f)) default) = listMin (l.map f) := by
  have hne : l.map f ≠ [] := fun hn => h (List.map_eq_nil.mp hn)
  have hj : argmin (l.map f) < l.length := by
    have := argmin_lt_length hne
    rwa [List.length_map] at this
  rw [← getD_map_lt (f := f) 0 default hj, getD_argmin_eq hne 0]

theorem getD_argmin_map_mem {α : Type} [Inhabited α] (f : α → Nat)
    {l : List α} (h : l ≠ []) :
    l.getD (argmin (l.map f)) default ∈ l := by
  have hne : l.map f ≠ [] := fun hn => h (List.map_eq_nil.mp hn)
  have hj : argmin (l.map f) < l.length := by
    have := argmin_lt_length hne
    rwa [List.length_map] at this
  exact getD_mem_lt default hj

/-- The stitch for a pair of nonempty fragments joins a row of each at
the minimum pairwise squared distance. -/
theorem stitchPair_spec {A B : List Node} (hA : A ≠ []) (hB : B ≠ []) :
    ∃ x ∈ A, ∃ y ∈ B,
      stitchPair A B = ((x.rowId, y.rowId), dist2 y x) ∧
      (∀ pa ∈ A, ∀ pb ∈ B, dist2 y x ≤ dist2 pb pa) := by
  have hymem := getD_argmin_map_mem
    (fun b => listMin (A.map (fun a => dist2 b a))) hB
  have hyd := listMin_map_argmin
    (fun b => listMin (A.map (fun a => dist2 b a))) hB
  have hxmem := getD_argmin_map_mem
    (fun a => dist2 (B.getD (argmin (B.map
      (fun b => listMin (A.map (fun a => dist2 b a))))) default) a) hA
  have hxd := listMin_map_argmin
    (fun a => dist2 (B.getD (argmin (B.map
      (fun b => listMin (A.map (fun a => dist2 b a))))) default) a) hA
  have hxd2 : dist2
      (B.getD (argmin (B.map (fun b => listMin (A.map (fun a => dist2 b a)))))
        default)
      (A.getD (argmin (A.map (fun a => dist2 (B.getD (argmin (B.map
        (fun b => listMin (A.map (fun a => dist2 b a))))) default) a)))
        default) =
      listMin (A.map (fun a => dist2 (B.getD (argmin (B.map
        (fun b => listMin (A.map (fun a => dist2 b a))))) default) a)) := hxd
  have hyd2 : listMin (A.map (fun a => dist2 (B.getD (argmin (B.map
        (fun b => listMin (A.map (fun a => dist2 b a))))) default) a)) =
      listMin (B.map (fun b => listMin (A.map (fun a => dist2 b a)))) := hyd
  refine ⟨_, hxmem, _, hymem, ?_, ?_⟩
  · show ((_, _), listMin (A.map (fun a => dist2 (B.getD (argmin (B.map
      (fun b => listMin (A.map (fun a => dist2 b a))))) default) a))) =
      ((_, _), _)
    rw [← hxd2]
  · intro pa hpa pb hpb
    rw [hxd2, hyd2]
    have hmin1 : listMin (B.map
        (fun b => listMin (A.map (fun a => dist2 b a)))) ≤
        listMin (A.map (fun a => dist2 pb a)) := by
      apply listMin_le
      rw [List.mem_map]
      exact ⟨pb, hpb, rfl⟩
    have hmin2 : listMin (A.map (fun a => dist2 pb a)) ≤ dist2 pb pa := by
      apply listMin_le
      rw [List.mem_map]
      exact ⟨pa, hpa, rfl⟩
    exact le_trans hmin1 hmin2

/-! ## Output parent chains -/

theorem parentOf_cases (T : List (Int × Int)) (v : Int) :
    parentOf T v = -1 ∨ (parentOf T v, v) ∈ T := by
  unfold parentOf
  cases hfind : T.find? (fun pc => pc.2 == v) with
  | none => exact Or.inl rfl
  | some pc =>
    right
    have hmem := List.mem_of_find?_eq_some hfind
    have hp := List.find?_some hfind
    rw [beq_iff_eq] at hp
    rw [← hp]
    exact hmem

theorem parentOf_not_child {T : List (Int × Int)} {v : Int}
    (h : v ∉ T.map (·.2)) : parentOf T v = -1 := by
  unfold parentOf
  have hfind : T.find? (fun pc => pc.2 == v) = none := by
    rw [List.find?_eq_none]
    intro pc hpc hbeq
    rw [beq_iff_eq] at hbeq
    exact h (hbeq ▸ List.mem_map_of_mem _ hpc)
  rw [hfind]

theorem parentOf_unique {T : List (Int × Int)}
    (hnd : (T.map (·.2)).Nodup) {p v : Int} (h : (p, v) ∈ T) :
    parentOf T v = p := by
  induction T with
  | nil => simp at h
  | cons q T ih =>
    rw [List.map_cons, List.nodup_cons] at hnd
    rcases List.mem_cons.mp h with h | h
    · unfold parentOf
      rw [List.find?_cons_of_pos (p := fun pc : Int × Int => pc.2 == v) _
        (by rw [← h]; simp)]
      rw [← h]
    · have hqv : ¬ (q.2 == v) = true := by
        rw [beq_iff_eq]
        intro hq
        apply hnd.1
        rw [hq]
        exact List.mem_map_of_mem _ h
      unfold parentOf
      rw [List.find?_cons_of_neg (p := fun pc : Int × Int => pc.2 == v) _ hqv]
      exact ih hnd.2 h

theorem parentOf_mem_child {T : List (Int × Int)} {v : Int}
    (h : v ∈ T.map (·.2)) : (parentOf T v, v) ∈ T := by
  unfold parentOf
  rw [List.mem_map] at h
  obtain ⟨pc, hpc, hpcv⟩ := h
  cases hfind : T.find? (fun pc => pc.2 == v) with
  | none =>
    exfalso
    rw [List.find?_eq_none] at hfind
    exact hfind pc hpc (by rw [beq_iff_eq]; exact hpcv)
  | some pc' =>
    have hp := List.find?_some hfind
    rw [beq_iff_eq] at hp
    rw [← hp]
    exact List.mem_of_find?_eq_some hfind

theorem chainHits_neg_one (df : List Node) : ∀ fuel, chainHits df fuel (-1) = true := by
  intro fuel
  cases fuel with
  | zero => rfl
  | succ fuel =>
    show ((-1 : Int) == -1 || _) = true
    simp

theorem indexOf_lt_of_pair_sublist {l : List Int} {a b : Int}
    (hsub : [a, b].Sublist l) (hnd : l.Nodup) :
    l.indexOf a < l.indexOf b := by
  induction l with
  | nil => simp at hsub
  | cons h t ih =>
    rw [List.nodup_cons] at hnd
    cases hsub with
    | cons _ hsub' =>
      have hat : a ∈ t := hsub'.subset (List.mem_cons_self _ _)
      have hbt : b ∈ t := hsub'.subset
        (List.mem_cons_of_mem _ (List.mem_cons_self _ _))
      have hha : h ≠ a := fun hh => hnd.1 (hh ▸ hat)
      have hhb : h ≠ b := fun hh => hnd.1 (hh ▸ hbt)
      rw [List.indexOf_cons_ne _ hha, List.indexOf_cons_ne _ hhb]
      exact Nat.succ_lt_succ (ih hsub' hnd.2)
    | cons₂ _ hsub' =>
      have hbt : b ∈ t := hsub'.subset (List.mem_cons_self _ _)
      have hba : b ≠ a := by
        intro hh
        exact hnd.1 (hh ▸ hbt)
      rw [List.indexOf_cons_self, List.indexOf_cons_ne _ hba.symm]
      exact Nat.succ_pos _

/-- Following rewritten links, every visited node reaches the sentinel:
parents precede their children in visit order, so the chain strictly
descends in the visit list. -/
theorem chain_of_tree {out : List Node} {T : List (Int × Int)}
    {vis : List Int} (hnd : vis.Nodup)
    (hsub : ∀ pu ∈ T, [pu.1, pu.2].Sublist vis)
    (hlink : ∀ v ∈ vis, linkOf out v = parentOf T v) :
    ∀ (fuel : Nat) (v : Int), v ∈ vis → vis.indexOf v < fuel →
      chainHits out fuel (linkOf out v) = true := by
  intro fuel
  induction fuel with
  | zero => intro v _ h; omega
  | succ fuel ih =>
    intro v hv hidx
    rw [hlink v hv]
    rcases parentOf_cases T v with hp | hp
    · rw [hp]
      exact chainHits_neg_one _ _
    · have hsubp : [parentOf T v, v].Sublist vis := hsub _ hp
      have hpvis : parentOf T v ∈ vis := hsubp.subset (List.mem_cons_self _ _)
      have hlt : vis.indexOf (parentOf T v) < vis.indexOf v :=
        indexOf_lt_of_pair_sublist hsubp hnd
      show (parentOf T v == -1 ||
        chainHits out fuel (linkOf out (parentOf T v))) = true
      by_cases hpneg : parentOf T v = -1
      · rw [hpneg]
        simp
      · rw [ih (parentOf T v) hpvis (by omega)]
        rw [Bool.or_true]

/-! ## The MST input: zero-weight edges stay in front of the stable sort -/

theorem orderedInsert_zero (a : (Int × Int) × Nat) (l : List ((Int × Int) × Nat))
    (ha : a.2 = 0) :
    List.orderedInsert (fun e f => e.2 ≤ f.2) a l = a :: l := by
  cases l with
  | nil => rfl
  | cons c rest =>
    unfold List.orderedInsert
    rw [if_pos (by rw [ha]; exact Nat.zero_le _)]

theorem insertionSort_zero_prefix (A B : List ((Int × Int) × Nat))
    (hA : ∀ a ∈ A, a.2 = 0) :
    List.insertionSort (fun e f => e.2 ≤ f.2) (A ++ B) =
      A ++ List.insertionSort (fun e f => e.2 ≤ f.2) B := by
  induction A with
  | nil => rw [List.nil_append, List.nil_append]
  | cons a A ih =>
    rw [List.cons_append]
    show List.orderedInsert _ a (List.insertionSort _ (A ++ B)) = _
    rw [ih (fun x hx => hA x (List.mem_cons_of_mem _ hx))]
    rw [orderedInsert_zero a _ (hA a (List.mem_cons_self _ _))]
    rfl

theorem healWEdges_eq (df0 : List Node) :
    healWEdges df0 = (healE df0).map (fun e => (e, 0)) ++
      List.insertionSort (fun e f => e.2 ≤ f.2) (healStitches df0) := by
  unfold healWEdges
  apply insertionSort_zero_prefix
  intro a ha
  rw [List.mem_map] at ha
  obtain ⟨e, _, he⟩ := ha
  rw [← he]

/-! ## Facts about the healing stages under well-formed input -/

theorem healFrags_ne_nil {df0 : List Node} (hwf : WellFormed df0) :
    ∀ A ∈ healFrags df0, A ≠ [] := by
  obtain ⟨hnd, hneg, hlink, hchain⟩ := WellFormed_sortSkeleton hwf
  intro A hA
  unfold healFrags at hA
  have hA' : A ∈ fragsOf (healDf df0) (healComps df0) :=
    (List.perm_insertionSort _ _).mem_iff.mp hA
  unfold fragsOf at hA'
  rw [List.mem_map] at hA'
  obtain ⟨c, hc, hcA⟩ := hA'
  have hVnd : (healV df0).Nodup := by
    unfold healV healDf
    rw [nxNodes_eq (sortSkeleton_sorted df0) hnd hlink]
    exact hnd
  obtain ⟨v, hvV, hvc⟩ := componentsOf_nonempty hVnd c hc
  have hvids : v ∈ nodeIds (healDf df0) := by
    unfold healV healDf at hvV
    rwa [nxNodes_eq (sortSkeleton_sorted df0) hnd hlink] at hvV
  obtain ⟨r, hr, hrv⟩ := mem_nodeIds.mp hvids
  intro hAnil
  have : r ∈ A := by
    rw [← hcA, List.mem_filter]
    exact ⟨hr, by rw [hrv]; simpa using hvc⟩
  rw [hAnil] at this
  simp at this

theorem healFrags_sub {df0 : List Node} :
    ∀ A ∈ healFrags df0, ∀ r ∈ A, r ∈ healDf df0 := by
  intro A hA r hr
  unfold healFrags at hA
  have hA' : A ∈ fragsOf (healDf df0) (healComps df0) :=
    (List.perm_insertionSort _ _).mem_iff.mp hA
  unfold fragsOf at hA'
  rw [List.mem_map] at hA'
  obtain ⟨c, _, hcA⟩ := hA'
  rw [← hcA, List.mem_filter] at hr
  exact hr.1

theorem healStitches_in_V {df0 : List Node} (hwf : WellFormed df0) :
    ∀ ew ∈ healStitches df0, ew.1.1 ∈ healV df0 ∧ ew.1.2 ∈ healV df0 := by
  obtain ⟨hnd, hneg, hlink, hchain⟩ := WellFormed_sortSkeleton hwf
  intro ew hew
  unfold healStitches stitchesOf at hew
  rw [List.mem_map] at hew
  obtain ⟨⟨A, B⟩, hab, habe⟩ := hew
  obtain ⟨hA, hB⟩ := mem_combPairs hab
  have hAne := healFrags_ne_nil hwf A hA
  have hBne := healFrags_ne_nil hwf B hB
  obtain ⟨x, hx, y, hy, heq, _⟩ := stitchPair_spec hAne hBne
  have hVeq : healV df0 = nodeIds (healDf df0) := by
    unfold healV healDf
    exact nxNodes_eq (sortSkeleton_sorted df0) hnd hlink
  rw [← habe, heq]
  constructor
  · rw [hVeq]
    exact List.mem_map_of_mem _ (healFrags_sub A hA x hx)
  · rw [hVeq]
    exact List.mem_map_of_mem _ (healFrags_sub B hB y hy)

/-! ## The early exit -/

theorem earlyExit_of_connected {df0 : List Node} (hwf : WellFormed df0)
    (hne : df0 ≠ [])
    (hconn : ∀ a ∈ healV df0, ∀ b ∈ healV df0, Conn (healE df0) a b) :
    earlyExit df0 = true := by
  obtain ⟨hnd, hneg, hlink, hchain⟩ := WellFormed_sortSkeleton hwf
  have hVeq : healV df0 = nodeIds (healDf df0) := by
    unfold healV healDf
    exact nxNodes_eq (sortSkeleton_sorted df0) hnd hlink
  have hVnd : (healV df0).Nodup := by rw [hVeq]; exact hnd
  have hdfne : healDf df0 ≠ [] := by
    intro h0
    apply hne
    have := (sortSkeleton_perm df0).length_eq
    rw [show healDf df0 = sortSkeleton df0 from rfl] at h0
    rw [h0] at this
    exact List.length_eq_zero.mp this.symm
  have hVne : healV df0 ≠ [] := by
    rw [hVeq]
    intro h0
    exact hdfne (List.map_eq_nil.mp h0)
  have hEin : ∀ e ∈ healE df0, e.1 ∈ healV df0 ∧ e.2 ∈ healV df0 := by
    rw [hVeq]
    exact nxEdges_mem_V (sortSkeleton_sorted df0) hnd hlink
  obtain ⟨c, hc, hclen⟩ := comp_full_of_connected hVnd hVne hEin hconn
  unfold earlyExit
  rw [List.any_eq_true]
  refine ⟨c, hc, ?_⟩
  rw [beq_iff_eq, hclen, hVeq]
  exact List.length_map _ _

theorem connected_of_earlyExit {df0 : List Node} (hwf : WellFormed df0)
    (he : earlyExit df0 = true) :
    ∀ a ∈ healV df0, ∀ b ∈ healV df0, Conn (healE df0) a b := by
  obtain ⟨hnd, hneg, hlink, hchain⟩ := WellFormed_sortSkeleton hwf
  have hVeq : healV df0 = nodeIds (healDf df0) := by
    unfold healV healDf
    exact nxNodes_eq (sortSkeleton_sorted df0) hnd hlink
  have hVnd : (healV df0).Nodup := by rw [hVeq]; exact hnd
  have hEin : ∀ e ∈ healE df0, e.1 ∈ healV df0 ∧ e.2 ∈ healV df0 := by
    rw [hVeq]
    exact nxEdges_mem_V (sortSkeleton_sorted df0) hnd hlink
  unfold earlyExit at he
  rw [List.any_eq_true] at he
  obtain ⟨c, hc, hclen⟩ := he
  rw [beq_iff_eq] at hclen
  have hclen' : c.length = (healV df0).length := by
    rw [hclen, hVeq]
    exact (List.length_map _ _).symm
  intro a ha b hb
  exact (lookup_compMap_iff hEin ha hb).mp
    (comp_full_all hVnd hc hclen' a ha b hb)

/-! ## Connectivity of the stitched graph -/

theorem healStitch_adj {df0 : List Node} (hwf : WellFormed df0) :
    ∀ P Q : List Node, (P, Q) ∈ combPairs (healFrags df0) →
      ∃ x ∈ P, ∃ y ∈ Q,
        adjIn (healE df0 ++ (healStitches df0).map (·.1)) x.rowId y.rowId := by
  intro P Q hPQ
  obtain ⟨hP, hQ⟩ := mem_combPairs hPQ
  obtain ⟨x, hx, y, hy, heq', _⟩ :=
    stitchPair_spec (healFrags_ne_nil hwf P hP) (healFrags_ne_nil hwf Q hQ)
  refine ⟨x, hx, y, hy, Or.inl (List.mem_append_right _ ?_)⟩
  have h1 : stitchPair P Q ∈ healStitches df0 := by
    unfold healStitches stitchesOf
    exact List.mem_map_of_mem _ hPQ
  rw [heq'] at h1
  simpa using List.mem_map_of_mem (·.1) h1

theorem healStitched_conn {df0 : List Node} (hwf : WellFormed df0) :
    ∀ a ∈ healV df0, ∀ b ∈ healV df0,
      Conn (healE df0 ++ (healStitches df0).map (·.1)) a b := by
  obtain ⟨hnd, hneg, hlink, hchain⟩ := WellFormed_sortSkeleton hwf
  have hVeq : healV df0 = nodeIds (healDf df0) := by
    unfold healV healDf
    exact nxNodes_eq (sortSkeleton_sorted df0) hnd hlink
  have hEin : ∀ e ∈ healE df0, e.1 ∈ healV df0 ∧ e.2 ∈ healV df0 := by
    rw [hVeq]
    exact nxEdges_mem_V (sortSkeleton_sorted df0) hnd hlink
  have hfragmem : ∀ (l : Int), ∀ x ∈ (healDf df0).filter
      (fun r => r.rowId ∈ (healV df0).filter
        (fun w => lookupLab (compMap (healV df0) (healE df0)) w = l)),
      x.rowId ∈ healV df0 ∧
        lookupLab (compMap (healV df0) (healE df0)) x.rowId = l := by
    intro l x hx
    rw [List.mem_filter] at hx
    have hxr : x.rowId ∈ (healV df0).filter
        (fun w => lookupLab (compMap (healV df0) (healE df0)) w = l) := by
      simpa using hx.2
    rw [List.mem_filter] at hxr
    exact ⟨hxr.1, by simpa using hxr.2⟩
  have hfragF : ∀ (v : Int), v ∈ healV df0 →
      (healDf df0).filter (fun r => r.rowId ∈ (healV df0).filter
        (fun w => lookupLab (compMap (healV df0) (healE df0)) w =
          lookupLab (compMap (healV df0) (healE df0)) v)) ∈ healFrags df0 := by
    intro v hv
    unfold healFrags sortFragsDesc
    rw [(List.perm_insertionSort _ _).mem_iff]
    unfold fragsOf
    rw [List.mem_map]
    refine ⟨(healV df0).filter (fun w =>
      lookupLab (compMap (healV df0) (healE df0)) w =
        lookupLab (compMap (healV df0) (healE df0)) v), ?_, rfl⟩
    show _ ∈ healComps df0
    unfold healComps
    exact mem_componentsOf.mpr
      ⟨lookupLab (compMap (healV df0) (healE df0)) v,
        lookupLab_mem_labels (by rw [keys_compMap]; exact hv), rfl⟩
  have hrowfrag : ∀ (v : Int), v ∈ healV df0 →
      ∃ r ∈ (healDf df0).filter (fun r => r.rowId ∈ (healV df0).filter
        (fun w => lookupLab (compMap (healV df0) (healE df0)) w =
          lookupLab (compMap (healV df0) (healE df0)) v)),
        r.rowId = v := by
    intro v hv
    obtain ⟨r, hr, hrv⟩ := mem_nodeIds.mp (hVeq ▸ hv)
    refine ⟨r, ?_, hrv⟩
    rw [List.mem_filter]
    refine ⟨hr, ?_⟩
    have : r.rowId ∈ (healV df0).filter
        (fun w => lookupLab (compMap (healV df0) (healE df0)) w =
          lookupLab (compMap (healV df0) (healE df0)) v) := by
      rw [List.mem_filter, hrv]
      exact ⟨hv, by simp⟩
    simpa using this
  intro a ha b hb
  by_cases hlab : lookupLab (compMap (healV df0) (healE df0)) a =
      lookupLab (compMap (healV df0) (healE df0)) b
  · exact ((lookup_compMap_iff hEin ha hb).mp hlab).mono
      (fun e he => List.mem_append_left _ he)
  · have hAf := hfragF a ha
    have hBf := hfragF b hb
    have hABne : (healDf df0).filter (fun r => r.rowId ∈ (healV df0).filter
        (fun w => lookupLab (compMap (healV df0) (healE df0)) w =
          lookupLab (compMap (healV df0) (healE df0)) a)) ≠
        (healDf df0).filter (fun r => r.rowId ∈ (healV df0).filter
        (fun w => lookupLab (compMap (healV df0) (healE df0)) w =
          lookupLab (compMap (healV df0) (healE df0)) b)) := by
      intro hAB
      obtain ⟨r, hrA, hrv⟩ := hrowfrag a ha
      rw [hAB] at hrA
      have := (hfragmem _ r hrA).2
      rw [hrv] at this
      exact hlab this
    rcases combPairs_cover hAf hBf hABne with hcp | hcp
    · obtain ⟨x, hxA, y, hyB, hadj⟩ := healStitch_adj hwf _ _ hcp
      have hxm := hfragmem _ x hxA
      have hym := hfragmem _ y hyB
      have c1 : Conn (healE df0) a x.rowId :=
        (lookup_compMap_iff hEin ha hxm.1).mp hxm.2.symm
      have c2 : Conn (healE df0) y.rowId b :=
        (lookup_compMap_iff hEin hym.1 hb).mp hym.2
      exact ((c1.mono (fun e he => List.mem_append_left _ he)).tail hadj).trans
        (c2.mono (fun e he => List.mem_append_left _ he))
    · obtain ⟨x, hxB, y, hyA, hadj⟩ := healStitch_adj hwf _ _ hcp
      have hxm := hfragmem _ x hxB
      have hym := hfragmem _ y hyA
      have c1 : Conn (healE df0) a y.rowId :=
        (lookup_compMap_iff hEin ha hym.1).mp hym.2.symm
      have c2 : Conn (healE df0) x.rowId b :=
        (lookup_compMap_iff hEin hxm.1 hb).mp hxm.2
      exact ((c1.mono (fun e he => List.mem_append_left _ he)).tail
        (adjIn_symm hadj)).trans
        (c2.mono (fun e he => List.mem_append_left _ he))

/-! ## The parent-column edge set -/

theorem mem_linkEdges {df : List Node} {e : Int × Int} :
    e ∈ linkEdges df ↔ ∃ r ∈ df, ¬ r.link = -1 ∧ e = (r.link, r.rowId) := by
  unfold linkEdges
  rw [List.mem_filterMap]
  constructor
  · rintro ⟨r, hr, hfr⟩
    by_cases h : r.link = -1
    · rw [if_pos h] at hfr
      exact absurd hfr (Option.noConfusion)
    · rw [if_neg h] at hfr
      exact ⟨r, hr, h, (Option.some.inj hfr).symm⟩
  · rintro ⟨r, hr, h, he⟩
    exact ⟨r, hr, by rw [if_neg h, he]⟩

theorem length_linkEdges (df : List Node) :
    (linkEdges df).length = df.countP (fun r => ¬ r.link = -1) := by
  induction df with
  | nil => rfl
  | cons r df ih =>
    show (List.filterMap _ (r :: df)).length = _
    rw [List.filterMap_cons, List.countP_cons]
    by_cases h : r.link = -1
    · have hc : (decide ¬(r.link = -1)) = false := by simp [h]
      rw [if_pos h, hc, if_neg Bool.false_ne_true]
      exact ih
    · have hc : (decide ¬(r.link = -1)) = true := by simp [h]
      rw [if_neg h, hc, if_pos rfl, List.length_cons]
      exact congrArg (fun n => n + 1) ih

theorem conn_of_adj {E E' : List (Int × Int)}
    (h : ∀ a b, adjIn E a b → adjIn E' a b) {a b : Int}
    (hc : Conn E a b) : Conn E' a b := by
  induction hc with
  | refl => exact .refl _
  | tail _ hadj ih => exact .tail ih (h _ _ hadj)

theorem mem_linkEdges_swap {df : List Node}
    (hs : df.Sorted (fun a b => a.rowId ≤ b.rowId))
    (hnd : (nodeIds df).Nodup) {x y : Int} :
    (x, y) ∈ linkEdges df ↔ (y, x) ∈ nxEdges df := by
  rw [mem_linkEdges, mem_nxEdges hs hnd]
  constructor
  · rintro ⟨r, hr, h, he⟩
    rw [Prod.mk.injEq] at he
    exact ⟨r, hr, h, by rw [Prod.mk.injEq]; exact ⟨he.2, he.1⟩⟩
  · rintro ⟨r, hr, h, he⟩
    rw [Prod.mk.injEq] at he
    exact ⟨r, hr, h, by rw [Prod.mk.injEq]; exact ⟨he.2, he.1⟩⟩

theorem adj_linkEdges_nxEdges {df : List Node}
    (hs : df.Sorted (fun a b => a.rowId ≤ b.rowId))
    (hnd : (nodeIds df).Nodup) (a b : Int) :
    adjIn (linkEdges df) a b ↔ adjIn (nxEdges df) a b := by
  unfold adjIn
  rw [mem_linkEdges_swap hs hnd, mem_linkEdges_swap hs hnd]
  exact Or.comm

theorem mem_linkEdges_perm {df df' : List Node} (hp : df.Perm df')
    {e : Int × Int} : e ∈ linkEdges df ↔ e ∈ linkEdges df' :=
  (hp.filterMap _).mem_iff

/-! ## The early-exit branch of heal_skeleton -/

theorem heal_early_spec {df0 : List Node} (hwf : WellFormed df0)
    (hne : df0 ≠ []) (hex : earlyExit df0 = true) :
    heal df0 = .ok (healDf df0) ∧
    countSentinel (healDf df0) = 1 ∧
    (∀ a ∈ nodeIds (healDf df0), ∀ b ∈ nodeIds (healDf df0),
      Conn (linkEdges (healDf df0)) a b) ∧
    (linkEdges (healDf df0)).length + 1 = (healDf df0).length ∧
    (∀ r ∈ healDf df0, chainHits (healDf df0) (healDf df0).length r.link = true) := by
  obtain ⟨hnd, hneg, hlink, hchain⟩ := WellFormed_sortSkeleton hwf
  have hs := sortSkeleton_sorted df0
  have h1 : heal df0 = .ok (healDf df0) := by
    unfold heal
    rw [if_pos hex]
  have hVeq : healV df0 = nodeIds (healDf df0) := by
    unfold healV healDf
    exact nxNodes_eq hs hnd hlink
  have hdfne : healDf df0 ≠ [] := by
    intro h0
    apply hne
    have hl := (sortSkeleton_perm df0).length_eq
    rw [show healDf df0 = sortSkeleton df0 from rfl] at h0
    rw [h0] at hl
    exact List.length_eq_zero.mp hl.symm
  have hVne : nodeIds (healDf df0) ≠ [] := by
    intro h0
    exact hdfne (List.map_eq_nil.mp h0)
  have hEin : ∀ e ∈ healE df0, e.1 ∈ healV df0 ∧ e.2 ∈ healV df0 := by
    rw [hVeq]
    exact nxEdges_mem_V hs hnd hlink
  have hconnE := connected_of_earlyExit hwf hex
  have hnum1 : numComps (nodeIds (healDf df0)) (nxEdges (healDf df0)) = 1 := by
    apply numComps_eq_one hVne hnd
    · rw [← hVeq]
      exact hEin
    · intro a ha b hb
      exact hconnE a (hVeq ▸ ha) b (hVeq ▸ hb)
  have hroots := numComps_eq_roots hs hnd hneg hlink hchain
  have hcount1 : (healDf df0).countP (fun r => r.link = -1) = 1 := by
    rw [show healDf df0 = sortSkeleton df0 from rfl, ← hroots]
    exact hnum1
  have hsent : countSentinel (healDf df0) = 1 := by
    unfold countSentinel
    rw [← List.countP_eq_length_filter]
    exact hcount1
  have hsplit := countP_link_split (healDf df0)
  have hlel := length_linkEdges (healDf df0)
  refine ⟨h1, hsent, ?_, by omega, hchain⟩
  intro a ha b hb
  have hca : Conn (healE df0) a b := hconnE a (hVeq ▸ ha) b (hVeq ▸ hb)
  exact conn_of_adj
    (fun x y hadj => (adj_linkEdges_nxEdges hs hnd x y).mpr hadj) hca

/-! ## The fragments branch of heal_skeleton -/

theorem heal_main_spec {df0 : List Node} (hwf : WellFormed df0)
    (hne : df0 ≠ []) (hex : earlyExit df0 = false) :
    ∃ D : List (Int × Int),
      heal df0 = .ok (healOut df0) ∧
      healMST df0 = healE df0 ++ D ∧
      D.length + 1 = numFragsOf df0 ∧
      (∀ e ∈ D, ∃ w, (e, w) ∈ healStitches df0) ∧
      (∀ a ∈ healV df0, ∀ b ∈ healV df0, Conn (healMST df0) a b) ∧
      countSentinel (healOut df0) = 1 ∧
      (∃ r0 rest, healOut df0 = r0 :: rest ∧ r0.link = -1 ∧
        ∀ r ∈ healOut df0, r0.rowId ≤ r.rowId) ∧
      nodeIds (healOut df0) = nodeIds (healDf df0) ∧
      (∀ a ∈ nodeIds (healOut df0), ∀ b ∈ nodeIds (healOut df0),
        Conn (linkEdges (healOut df0)) a b) ∧
      (linkEdges (healOut df0)).length + 1 = (healOut df0).length ∧
      (∀ r ∈ healOut df0,
        chainHits (healOut df0) (healOut df0).length r.link = true) := by
  obtain ⟨hnd, hneg, hlink, hchain⟩ := WellFormed_sortSkeleton hwf
  have hs := sortSkeleton_sorted df0
  have hVeq : healV df0 = nodeIds (healDf df0) := by
    unfold healV healDf
    exact nxNodes_eq hs hnd hlink
  have hVnd : (healV df0).Nodup := by rw [hVeq]; exact hnd
  have hEin : ∀ e ∈ healE df0, e.1 ∈ healV df0 ∧ e.2 ∈ healV df0 := by
    rw [hVeq]
    exact nxEdges_mem_V hs hnd hlink
  have hdfne : healDf df0 ≠ [] := by
    intro h0
    apply hne
    have hl := (sortSkeleton_perm df0).length_eq
    rw [show healDf df0 = sortSkeleton df0 from rfl] at h0
    rw [h0] at hl
    exact List.length_eq_zero.mp hl.symm
  obtain ⟨r0, rest, hdf⟩ : ∃ r0 rest, healDf df0 = r0 :: rest := by
    cases h : healDf df0 with
    | nil => exact absurd h hdfne
    | cons r0 rest => exact ⟨r0, rest, rfl⟩
  have hVne : healV df0 ≠ [] := by
    rw [hVeq]
    intro h0
    exact hdfne (List.map_eq_nil.mp h0)
  have hneg1V : (-1 : Int) ∉ healV df0 := by
    rw [hVeq]
    intro h
    obtain ⟨r, hr, hrv⟩ := mem_nodeIds.mp h
    exact hneg r hr hrv
  have hforest : (healE df0).length + numComps (healV df0) (healE df0) =
      (healV df0).length := by
    rw [hVeq]
    exact forest_count hs hnd hneg hlink hchain
  have hSp : (List.insertionSort (fun e f => e.2 ≤ f.2)
      (healStitches df0)).Perm (healStitches df0) :=
    List.perm_insertionSort _ _
  have hSin : ∀ ew ∈ List.insertionSort (fun e f => e.2 ≤ f.2)
      (healStitches df0), ew.1.1 ∈ healV df0 ∧ ew.1.2 ∈ healV df0 :=
    fun ew hew => healStitches_in_V hwf ew (hSp.mem_iff.mp hew)
  obtain ⟨D, hkres, hDsub, hDin, hDconn, hDcnt⟩ :=
    kruskal_zero_first (healV df0) (healE df0) _ hVnd hEin hSin hforest
  have hMST : healMST df0 = healE df0 ++ D := by
    unfold healMST
    rw [healWEdges_eq]
    exact hkres
  have hconnMST : ∀ a ∈ healV df0, ∀ b ∈ healV df0,
      Conn (healMST df0) a b := by
    intro a ha b hb
    rw [hMST]
    apply (hDconn a b).mpr
    have hiff : ∀ e, e ∈ healE df0 ++
        (List.insertionSort (fun e f => e.2 ≤ f.2)
          (healStitches df0)).map (·.1) ↔
        e ∈ healE df0 ++ (healStitches df0).map (·.1) := by
      intro e
      rw [List.mem_append, List.mem_append, (hSp.map _).mem_iff]
    exact (conn_congr hiff).mpr (healStitched_conn hwf a ha b hb)
  have hEDin : ∀ e ∈ healE df0 ++ D, e.1 ∈ healV df0 ∧ e.2 ∈ healV df0 := by
    intro e he
    rcases List.mem_append.mp he with h | h
    · exact hEin e h
    · exact hDin e h
  have hnumC : numComps (healV df0) (healE df0 ++ D) = 1 := by
    apply numComps_eq_one hVne hVnd hEDin
    intro a ha b hb
    rw [← hMST]
    exact hconnMST a ha b hb
  have hFrag : numFragsOf df0 = numComps (healV df0) (healE df0) := by
    unfold numFragsOf healComps
    exact componentsOf_length _ _
  have hDlen : D.length + 1 = numFragsOf df0 := by
    have h1 := hDcnt
    rw [List.length_append, hnumC] at h1
    omega
  have hDst : ∀ e ∈ D, ∃ w, (e, w) ∈ healStitches df0 := by
    intro e he
    have hm : e ∈ (List.insertionSort (fun e f => e.2 ≤ f.2)
        (healStitches df0)).map (·.1) := hDsub.subset he
    rw [List.mem_map] at hm
    obtain ⟨ew, hew, hewe⟩ := hm
    subst hewe
    exact ⟨ew.2, hSp.mem_iff.mp hew⟩
  -- the DFS stage
  have hroot : r0.rowId ∈ healV df0 := by
    rw [hVeq]
    exact List.mem_map_of_mem _ (hdf ▸ List.mem_cons_self _ _)
  have hMin : ∀ e ∈ healMST df0, e.1 ∈ healV df0 ∧ e.2 ∈ healV df0 := by
    rw [hMST]
    exact hEDin
  have hTdef : healTree df0 = dfsTree (healV df0) (healMST df0) r0.rowId := by
    unfold healTree
    rw [hdf]
    rfl
  obtain ⟨hT1, hT2, hT3, hT4, hT5, hT6⟩ :=
    dfsTree_spec (healV df0) (healMST df0) r0.rowId hVnd hMin hroot
  rw [← hTdef] at hT1 hT2 hT3 hT4 hT5 hT6
  have hVsubvis : ∀ v ∈ healV df0,
      v ∈ r0.rowId :: (healTree df0).map (·.2) :=
    fun v hv => hT6 v (hconnMST _ hroot _ hv)
  have hvisperm : (r0.rowId :: (healTree df0).map (·.2)).Perm (healV df0) :=
    (List.perm_ext_iff_of_nodup hT2 hVnd).mpr
      (fun a => ⟨fun h => hT3 a h, fun h => hVsubvis a h⟩)
  have hTnd : ((healTree df0).map (·.2)).Nodup := (List.nodup_cons.mp hT2).2
  have hrootnc : r0.rowId ∉ (healTree df0).map (·.2) :=
    (List.nodup_cons.mp hT2).1
  have hparent_root : parentOf (healTree df0) r0.rowId = -1 :=
    parentOf_not_child hrootnc
  have hparent_ne : ∀ v ∈ healV df0, v ≠ r0.rowId →
      ¬ parentOf (healTree df0) v = -1 := by
    intro v hv hvr hcon
    have hvchild : v ∈ (healTree df0).map (·.2) := by
      rcases List.mem_cons.mp (hVsubvis v hv) with h | h
      · exact absurd h hvr
      · exact h
    have hmem := parentOf_mem_child hvchild
    rw [hcon] at hmem
    have hsubp := hT4 _ hmem
    have hm1 : (-1 : Int) ∈ r0.rowId :: (healTree df0).map (·.2) :=
      hsubp.subset (List.mem_cons_self _ _)
    exact hneg1V (hT3 _ hm1)
  have hparent_V : ∀ v, v ∈ (healTree df0).map (·.2) →
      parentOf (healTree df0) v ∈ healV df0 := by
    intro v hv
    have hmem := parentOf_mem_child hv
    have hsubp := hT4 _ hmem
    exact hT3 _ (hsubp.subset (List.mem_cons_self _ _))
  -- the output rows
  have hOut : healOut df0 = (healDf df0).map
      (fun r => { r with link := parentOf (healTree df0) r.rowId }) := rfl
  have hidsOut : nodeIds (healOut df0) = nodeIds (healDf df0) := by
    unfold nodeIds
    rw [hOut, List.map_map]
    rfl
  have hfilter : (healOut df0).filter (fun r => r.link = -1) =
      ((healDf df0).filter (fun r => r.rowId = r0.rowId)).map
        (fun r => { r with link := parentOf (healTree df0) r.rowId }) := by
    rw [hOut, List.filter_map]
    congr 1
    apply List.filter_congr
    intro r hr
    apply decide_eq_decide.mpr
    show parentOf (healTree df0) r.rowId = -1 ↔ r.rowId = r0.rowId
    constructor
    · intro h
      by_contra hne'
      exact hparent_ne r.rowId (by rw [hVeq]; exact List.mem_map_of_mem _ hr)
        hne' h
    · intro h
      rw [h]
      exact hparent_root
  have hfilter_id : (healDf df0).filter (fun r => r.rowId = r0.rowId) =
      [r0] := by
    rw [hdf]
    rw [List.filter_cons_of_pos (by simp)]
    have hrest : rest.filter (fun r => r.rowId = r0.rowId) = [] := by
      rw [List.filter_eq_nil]
      intro r hr hdec
      have hrr : r.rowId = r0.rowId := by simpa using hdec
      have hnd' : (nodeIds (r0 :: rest)).Nodup := by rw [← hdf]; exact hnd
      unfold nodeIds at hnd'
      rw [List.map_cons, List.nodup_cons] at hnd'
      exact hnd'.1 (hrr ▸ List.mem_map_of_mem _ hr)
    rw [hrest]
  have hsent : countSentinel (healOut df0) = 1 := by
    unfold countSentinel
    rw [hfilter, hfilter_id]
    rfl
  have hOutShape : healOut df0 =
      { r0 with link := parentOf (healTree df0) r0.rowId } ::
        rest.map (fun r => { r with link := parentOf (healTree df0) r.rowId }) := by
    rw [hOut, hdf, List.map_cons]
  have hassert2 : ((healOut df0).head?.map (fun r => r.link)).getD 0 = -1 := by
    rw [hOutShape]
    show parentOf (healTree df0) r0.rowId = -1
    exact hparent_root
  have hok : heal df0 = .ok (healOut df0) := by
    unfold heal
    rw [if_neg (by rw [hex]; exact Bool.false_ne_true), hdf]
    show (if ((healOut df0).filter (fun r => r.link = -1)).length = 1 ∧
        (((healOut df0).head?.map (fun r => r.link)).getD 0 = -1)
      then Except.ok (healOut df0) else Except.error "AssertionError") =
        Except.ok (healOut df0)
    rw [if_pos ⟨hsent, hassert2⟩]
  -- the head of the output is the minimal id and the unique root
  have hmin : ∀ r ∈ healOut df0,
      ({ r0 with link := parentOf (healTree df0) r0.rowId } : Node).rowId ≤
        r.rowId := by
    intro r hr
    rw [hOut, List.mem_map] at hr
    obtain ⟨r', hr', hrr⟩ := hr
    have hrow : r.rowId = r'.rowId := by rw [← hrr]
    show r0.rowId ≤ r.rowId
    rw [hrow]
    rw [hdf] at hr'
    rcases List.mem_cons.mp hr' with h | h
    · rw [h]
    · have hsorted : List.Sorted (fun a b => a.rowId ≤ b.rowId)
          (r0 :: rest) := by rw [← hdf]; exact hs
      exact List.rel_of_sorted_cons hsorted _ h
  -- the link column is exactly the tree
  have hlinkmem : ∀ e : Int × Int,
      e ∈ linkEdges (healOut df0) ↔ e ∈ healTree df0 := by
    intro e
    rw [mem_linkEdges]
    constructor
    · rintro ⟨r, hr, hneq, he⟩
      rw [hOut, List.mem_map] at hr
      obtain ⟨r', hr', hrr⟩ := hr
      have hlk : r.link = parentOf (healTree df0) r'.rowId := by rw [← hrr]
      have hrow : r.rowId = r'.rowId := by rw [← hrr]
      have hchild : r'.rowId ∈ (healTree df0).map (·.2) := by
        by_contra hnc
        rw [hlk, parentOf_not_child hnc] at hneq
        exact hneq rfl
      have hmem := parentOf_mem_child hchild
      rw [he, hlk, hrow]
      exact hmem
    · intro hT
      have hy : e.2 ∈ (healTree df0).map (·.2) := List.mem_map_of_mem _ hT
      have hyV : e.2 ∈ healV df0 := hT3 _ (List.mem_cons_of_mem _ hy)
      obtain ⟨r', hr', hry⟩ := mem_nodeIds.mp (hVeq ▸ hyV)
      have hpu : parentOf (healTree df0) e.2 = e.1 := parentOf_unique hTnd
        (by rw [show ((e.1, e.2) : Int × Int) = e from rfl]; exact hT)
      refine ⟨{ r' with link := parentOf (healTree df0) r'.rowId },
        by rw [hOut]; exact List.mem_map_of_mem _ hr', ?_, ?_⟩
      · show ¬ parentOf (healTree df0) r'.rowId = -1
        rw [hry, hpu]
        intro h1
        have hsubp := hT4 _ hT
        have hm1 : e.1 ∈ r0.rowId :: (healTree df0).map (·.2) :=
          hsubp.subset (List.mem_cons_self _ _)
        exact hneg1V (h1 ▸ hT3 _ hm1)
      · show e = (parentOf (healTree df0) r'.rowId, r'.rowId)
        rw [hry, hpu]
  have hconnOut : ∀ a ∈ nodeIds (healOut df0), ∀ b ∈ nodeIds (healOut df0),
      Conn (linkEdges (healOut df0)) a b := by
    intro a ha b hb
    rw [hidsOut, ← hVeq] at ha hb
    have h5a := hT5 a (hVsubvis a ha)
    have h5b := hT5 b (hVsubvis b hb)
    exact (conn_congr hlinkmem).mpr (h5a.symm.trans h5b)
  have hlenOut : (healOut df0).length = (healDf df0).length := by
    rw [hOut]
    exact List.length_map _ _
  have hcntOut : (healOut df0).countP (fun r => r.link = -1) = 1 := by
    rw [List.countP_eq_length_filter]
    exact hsent
  have hsplitOut := countP_link_split (healOut df0)
  have hlelOut := length_linkEdges (healOut df0)
  have hedges : (linkEdges (healOut df0)).length + 1 = (healOut df0).length := by
    omega
  have hlinkof : ∀ v ∈ r0.rowId :: (healTree df0).map (·.2),
      linkOf (healOut df0) v = parentOf (healTree df0) v := by
    intro v hv
    have hvV : v ∈ healV df0 := hT3 _ hv
    obtain ⟨r', hr', hrv⟩ := mem_nodeIds.mp (hVeq ▸ hvV)
    have hndOut : (nodeIds (healOut df0)).Nodup := by
      rw [hidsOut]
      exact hnd
    have hrow : ({ r' with link := parentOf (healTree df0) r'.rowId } : Node) ∈
        healOut df0 := by
      rw [hOut]
      exact List.mem_map_of_mem _ hr'
    have h2 : linkOf (healOut df0) r'.rowId =
        parentOf (healTree df0) r'.rowId := linkOf_row hndOut hrow
    rw [← hrv]
    exact h2
  have hchainOut : ∀ r ∈ healOut df0,
      chainHits (healOut df0) (healOut df0).length r.link = true := by
    intro r hr
    rw [hOut, List.mem_map] at hr
    obtain ⟨r', hr', hrr⟩ := hr
    have hrV : r'.rowId ∈ healV df0 := by
      rw [hVeq]
      exact List.mem_map_of_mem _ hr'
    have hvvis := hVsubvis _ hrV
    have hidx : (r0.rowId :: (healTree df0).map (·.2)).indexOf r'.rowId <
        (healOut df0).length := by
      have h1 : (r0.rowId :: (healTree df0).map (·.2)).indexOf r'.rowId <
          (r0.rowId :: (healTree df0).map (·.2)).length :=
        List.indexOf_lt_length.mpr hvvis
      have h2 : (r0.rowId :: (healTree df0).map (·.2)).length =
          (healV df0).length := hvisperm.length_eq
      have h3 : (healV df0).length = (healOut df0).length := by
        rw [hVeq, hlenOut]
        exact List.length_map _ _
      omega
    have hch := chain_of_tree hT2 hT4 hlinkof (healOut df0).length r'.rowId
      hvvis hidx
    rw [hlinkof _ hvvis] at hch
    have hlk : r.link = parentOf (healTree df0) r'.rowId := by rw [← hrr]
    rw [hlk]
    exact hch
  refine ⟨D, hok, hMST, hDlen, hDst, hconnMST, hsent,
    ⟨_, _, hOutShape, ?_, hmin⟩, hidsOut, hconnOut, hedges, hchainOut⟩
  show ({ r0 with link := parentOf (healTree df0) r0.rowId } : Node).link = -1
  exact hparent_root

/-! ## Fragment counting versus the early exit -/

theorem frag2_not_early {df0 : List Node} (hwf : WellFormed df0)
    (hF : 2 ≤ numFragsOf df0) : df0 ≠ [] ∧ earlyExit df0 = false := by
  obtain ⟨hnd, hneg, hlink, hchain⟩ := WellFormed_sortSkeleton hwf
  have hne : df0 ≠ [] := by
    intro h0
    rw [h0] at hF
    have h1 : numFragsOf ([] : List Node) = 0 := rfl
    omega
  refine ⟨hne, ?_⟩
  cases hex : earlyExit df0 with
  | false => rfl
  | true =>
    exfalso
    have hconnE := connected_of_earlyExit hwf hex
    have hVeq : healV df0 = nodeIds (healDf df0) := by
      unfold healV healDf
      exact nxNodes_eq (sortSkeleton_sorted df0) hnd hlink
    have hVnd : (healV df0).Nodup := by rw [hVeq]; exact hnd
    have hEin : ∀ e ∈ healE df0, e.1 ∈ healV df0 ∧ e.2 ∈ healV df0 := by
      rw [hVeq]
      exact nxEdges_mem_V (sortSkeleton_sorted df0) hnd hlink
    have hdfne : healDf df0 ≠ [] := by
      intro h0
      apply hne
      have hl := (sortSkeleton_perm df0).length_eq
      rw [show healDf df0 = sortSkeleton df0 from rfl] at h0
      rw [h0] at hl
      exact List.length_eq_zero.mp hl.symm
    have hVne : healV df0 ≠ [] := by
      rw [hVeq]
      intro h0
      exact hdfne (List.map_eq_nil.mp h0)
    have hnum1 : numComps (healV df0) (healE df0) = 1 :=
      numComps_eq_one hVne hVnd hEin hconnE
    have hFrag : numFragsOf df0 = numComps (healV df0) (healE df0) := by
      unfold numFragsOf healComps
      exact componentsOf_length _ _
    omega

/-! ## The claims -/

/-- C1: for every well-formed input the returned node list, with the link
column read as an undirected edge set over the node ids, is one connected
component covering every node, has exactly one edge fewer than nodes, and
every parent chain terminates (no cycles): a single spanning tree. -/
theorem C1_spanning_tree {df0 : List Node} (hwf : WellFormed df0)
    (hne : df0 ≠ []) :
    ∃ out, heal df0 = .ok out ∧
      (∀ a ∈ nodeIds out, ∀ b ∈ nodeIds out, Conn (linkEdges out) a b) ∧
      (linkEdges out).length + 1 = out.length ∧
      (∀ r ∈ out, chainHits out out.length r.link = true) := by
  cases hex : earlyExit df0 with
  | true =>
    obtain ⟨h1, _, h3, h4, h5⟩ := heal_early_spec hwf hne hex
    exact ⟨healDf df0, h1, h3, h4, h5⟩
  | false =>
    obtain ⟨D, h1, _, _, _, _, _, _, _, h9, h10, h11⟩ :=
      heal_main_spec hwf hne hex
    exact ⟨healOut df0, h1, h9, h10, h11⟩

/-- C1 witness: the spanning-tree postcondition at the two-fragment
scenario. -/
theorem C1_spanning_tree_witness :
    WellFormed ex8 ∧ ex8 ≠ [] ∧
    (∃ out, heal ex8 = .ok out ∧
      (∀ a ∈ nodeIds out, ∀ b ∈ nodeIds out, Conn (linkEdges out) a b) ∧
      (linkEdges out).length + 1 = out.length ∧
      (∀ r ∈ out, chainHits out out.length r.link = true)) :=
  ⟨by decide, by decide, C1_spanning_tree (by decide) (by decide)⟩

/-- C2: with at least two fragments, the MST consists of every original
intra-fragment edge plus exactly F-1 of the stitch candidates, and it
connects all graph nodes. -/
theorem C2_mst_structure {df0 : List Node} (hwf : WellFormed df0)
    (hF : 2 ≤ numFragsOf df0) :
    ∃ D, healMST df0 = healE df0 ++ D ∧
      D.length + 1 = numFragsOf df0 ∧
      (∀ e ∈ D, ∃ w, (e, w) ∈ healStitches df0) ∧
      (∀ a ∈ healV df0, ∀ b ∈ healV df0, Conn (healMST df0) a b) := by
  obtain ⟨hne, hex⟩ := frag2_not_early hwf hF
  obtain ⟨D, _, h2, h3, h4, h5, _⟩ := heal_main_spec hwf hne hex
  exact ⟨D, h2, h3, h4, h5⟩

/-- C2 witness: the MST structure at the two-fragment scenario. -/
theorem C2_mst_structure_witness :
    WellFormed ex8 ∧ 2 ≤ numFragsOf ex8 ∧
    (∃ D, healMST ex8 = healE ex8 ++ D ∧
      D.length + 1 = numFragsOf ex8 ∧
      (∀ e ∈ D, ∃ w, (e, w) ∈ healStitches ex8) ∧
      (∀ a ∈ healV ex8, ∀ b ∈ healV ex8, Conn (healMST ex8) a b)) :=
  ⟨by decide, by decide, C2_mst_structure (by decide) (by decide)⟩

/-- C3: the stitching stage emits exactly C(F,2) candidate edges, one per
unordered pair of distinct fragments, and each candidate joins a closest
pair of points of its two fragments (weights are squared distances, an
order-preserving encoding of Euclidean distance). -/
theorem C3_stitch_edges {df0 : List Node} (hwf : WellFormed df0)
    (hF : 2 ≤ numFragsOf df0) :
    (healFrags df0).length = numFragsOf df0 ∧
    (healStitches df0).length = Nat.choose (numFragsOf df0) 2 ∧
    (∀ P Q : List Node, (P, Q) ∈ combPairs (healFrags df0) →
      ∃ x ∈ P, ∃ y ∈ Q,
        stitchPair P Q = ((x.rowId, y.rowId), dist2 y x) ∧
        ∀ pa ∈ P, ∀ pb ∈ Q, dist2 y x ≤ dist2 pb pa) := by
  have hlen : (healFrags df0).length = numFragsOf df0 := by
    unfold healFrags numFragsOf sortFragsDesc
    rw [(List.perm_insertionSort _ _).length_eq]
    unfold fragsOf
    exact List.length_map _ _
  refine ⟨hlen, ?_, ?_⟩
  · unfold healStitches stitchesOf
    rw [List.length_map, combPairs_length, hlen]
  · intro P Q hPQ
    obtain ⟨hP, hQ⟩ := mem_combPairs hPQ
    exact stitchPair_spec (healFrags_ne_nil hwf P hP)
      (healFrags_ne_nil hwf Q hQ)

/-- C3 witness: the stitch count and closest-pair property at the
two-fragment scenario. -/
theorem C3_stitch_edges_witness :
    WellFormed ex8 ∧ 2 ≤ numFragsOf ex8 ∧
    ((healFrags ex8).length = numFragsOf ex8 ∧
    (healStitches ex8).length = Nat.choose (numFragsOf ex8) 2 ∧
    (∀ P Q : List Node, (P, Q) ∈ combPairs (healFrags ex8) →
      ∃ x ∈ P, ∃ y ∈ Q,
        stitchPair P Q = ((x.rowId, y.rowId), dist2 y x) ∧
        ∀ pa ∈ P, ∀ pb ∈ Q, dist2 y x ≤ dist2 pb pa)) :=
  ⟨by decide, by decide, C3_stitch_edges (by decide) (by decide)⟩

/-- C4 counterexample: exC4 is a well-formed connected skeleton whose
root id 2 is not the smallest id 1; the early exit returns it with the
sentinel still on id 2, refuting "the sentinel node is the one with the
smallest id in the input". -/
theorem C4_root_min_counterexample :
    WellFormed exC4 ∧
    heal exC4 = .ok exC4out ∧
    countSentinel exC4out = 1 ∧
    (∃ r ∈ exC4out, r.link = -1 ∧ ∃ r' ∈ exC4out, r'.rowId < r.rowId) := by
  refine ⟨by decide, by rfl, by decide, by decide⟩

/-- C4 amended: the output always has exactly one sentinel row, and when
the early exit is not taken (the skeleton was fragmented) that row is the
one with the smallest id; on the early exit the input's own root, which
need not be the smallest id, is kept. -/
theorem C4_root_min_amended {df0 : List Node} (hwf : WellFormed df0)
    (hne : df0 ≠ []) :
    ∃ out, heal df0 = .ok out ∧ countSentinel out = 1 ∧
      (earlyExit df0 = false →
        ∃ r ∈ out, r.link = -1 ∧ ∀ r' ∈ out, r.rowId ≤ r'.rowId) := by
  cases hex : earlyExit df0 with
  | true =>
    obtain ⟨h1, h2, _⟩ := heal_early_spec hwf hne hex
    exact ⟨healDf df0, h1, h2, fun hff => Bool.noConfusion hff⟩
  | false =>
    obtain ⟨D, h1, _, _, _, _, h6, ⟨r0', rest', hshape, hr0link, hr0min⟩,
      _⟩ := heal_main_spec hwf hne hex
    refine ⟨healOut df0, h1, h6, fun _ => ⟨r0', ?_, hr0link, hr0min⟩⟩
    rw [hshape]
    exact List.mem_cons_self _ _

/-- C4 amended witness: the single sentinel sits at the smallest id in the
fragmented two-chain scenario. -/
theorem C4_root_min_amended_witness :
    WellFormed ex8 ∧ ex8 ≠ [] ∧
    (∃ out, heal ex8 = .ok out ∧ countSentinel out = 1 ∧
      (earlyExit ex8 = false →
        ∃ r ∈ out, r.link = -1 ∧ ∀ r' ∈ out, r.rowId ≤ r'.rowId)) :=
  ⟨by decide, by decide, C4_root_min_amended (by decide) (by decide)⟩

/-- C5: when the early exit is not taken and the relinked output violates
the spanning-tree postcondition (sentinel count not one, or the first row
not the sentinel), heal_skeleton raises instead of returning it. -/
theorem C5_assert_signals {df0 : List Node} (hex : earlyExit df0 = false)
    (hbad : ¬ countSentinel (healOut df0) = 1 ∨
      ¬ ((healOut df0).head?.map (fun r => r.link)).getD 0 = -1) :
    ∃ e, heal df0 = .error e := by
  cases hh : (healDf df0).head? with
  | none =>
    exact ⟨"IndexError: single positional indexer is out-of-bounds", by
      unfold heal
      rw [if_neg (by rw [hex]; exact Bool.false_ne_true), hh]⟩
  | some r =>
    refine ⟨"AssertionError", ?_⟩
    unfold heal
    rw [if_neg (by rw [hex]; exact Bool.false_ne_true), hh]
    show (if ((healOut df0).filter (fun r => r.link = -1)).length = 1 ∧
        (((healOut df0).head?.map (fun r => r.link)).getD 0 = -1)
      then Except.ok (healOut df0) else Except.error "AssertionError") =
        Except.error "AssertionError"
    rw [if_neg (fun hc => by
      rcases hbad with hb | hb
      · exact hb hc.1
      · exact hb hc.2)]

/-- C5 witness: duplicated ids leave two sentinel rows after relinking and
the run raises. -/
theorem C5_assert_signals_witness :
    earlyExit exDup = false ∧
    (¬ countSentinel (healOut exDup) = 1 ∨
      ¬ ((healOut exDup).head?.map (fun r => r.link)).getD 0 = -1) ∧
    (∃ e, heal exDup = .error e) :=
  ⟨by decide, by decide, C5_assert_signals (by decide) (by decide)⟩

/-- C6 counterexample: exDangle's single row references the absent parent
id 5, yet heal_skeleton returns successfully (the dangling id becomes a
phantom graph node and the link is silently rewritten), refuting "healing
raises a malformed-input error". -/
theorem C6_no_validation_counterexample :
    (∃ r ∈ exDangle, ¬ r.link = -1 ∧ r.link ∉ nodeIds exDangle) ∧
    heal exDangle = .ok [⟨1, 0, 0, 0, 1, -1⟩] := by
  refine ⟨by decide, by rfl⟩

/-- C6 amended: heal_skeleton performs no malformed-input validation; the
only exceptions it can raise are the empty-input IndexError and the final
AssertionError, never a malformed-input error. -/
theorem C6_no_validation_amended (df0 : List Node) (e : String)
    (h : heal df0 = .error e) :
    e = "IndexError: single positional indexer is out-of-bounds" ∨
    e = "AssertionError" := by
  unfold heal at h
  by_cases hex : earlyExit df0 = true
  · rw [if_pos hex] at h
    exact Except.noConfusion h
  · rw [if_neg hex] at h
    cases hh : (healDf df0).head? with
    | none =>
      rw [hh] at h
      have h2 : (Except.error
          "IndexError: single positional indexer is out-of-bounds" :
            Except String (List Node)) = Except.error e := h
      exact Or.inl (Except.error.inj h2).symm
    | some r =>
      rw [hh] at h
      have h2 : (if ((healOut df0).filter (fun r => r.link = -1)).length = 1 ∧
          (((healOut df0).head?.map (fun r => r.link)).getD 0 = -1)
        then Except.ok (healOut df0)
        else Except.error "AssertionError") = Except.error e := h
      by_cases hc : ((healOut df0).filter (fun r => r.link = -1)).length = 1 ∧
          (((healOut df0).head?.map (fun r => r.link)).getD 0 = -1)
      · rw [if_pos hc] at h2
        exact Except.noConfusion h2
      · rw [if_neg hc] at h2
        exact Or.inr (Except.error.inj h2).symm

/-- C6 amended witness: the empty input raises the IndexError, one of the
two permitted exceptions. -/
theorem C6_no_validation_amended_witness :
    ("IndexError: single positional indexer is out-of-bounds" : String) =
      "IndexError: single positional indexer is out-of-bounds" ∨
    ("IndexError: single positional indexer is out-of-bounds" : String) =
      "AssertionError" :=
  C6_no_validation_amended []
    "IndexError: single positional indexer is out-of-bounds" rfl

/-- C7: a non-empty well-formed input whose link column already connects
every node is returned unchanged up to the id sort (the early exit). -/
theorem C7_connected_idempotent {df0 : List Node} (hwf : WellFormed df0)
    (hne : df0 ≠ [])
    (hconn : ∀ a ∈ nodeIds df0, ∀ b ∈ nodeIds df0,
      Conn (linkEdges df0) a b) :
    heal df0 = .ok (sortSkeleton df0) ∧ (sortSkeleton df0).Perm df0 := by
  obtain ⟨hnd, hneg, hlink, hchain⟩ := WellFormed_sortSkeleton hwf
  have hs := sortSkeleton_sorted df0
  have hVeq : healV df0 = nodeIds (sortSkeleton df0) := by
    unfold healV healDf
    exact nxNodes_eq hs hnd hlink
  have hconn' : ∀ a ∈ healV df0, ∀ b ∈ healV df0, Conn (healE df0) a b := by
    intro a ha b hb
    have ha' : a ∈ nodeIds df0 :=
      (nodeIds_sortSkeleton_perm df0).mem_iff.mp (hVeq ▸ ha)
    have hb' : b ∈ nodeIds df0 :=
      (nodeIds_sortSkeleton_perm df0).mem_iff.mp (hVeq ▸ hb)
    have hc2 : Conn (linkEdges (sortSkeleton df0)) a b :=
      (hconn a ha' b hb').mono
        (fun e he => (mem_linkEdges_perm (sortSkeleton_perm df0)).mpr he)
    exact conn_of_adj
      (fun x y h => (adj_linkEdges_nxEdges hs hnd x y).mp h) hc2
  have hex := earlyExit_of_connected hwf hne hconn'
  refine ⟨?_, sortSkeleton_perm df0⟩
  unfold heal
  rw [if_pos hex]
  rfl

/-- C7 witness: the already-whole three-node chain is returned as is. -/
theorem C7_connected_idempotent_witness :
    WellFormed ex3 ∧ ex3 ≠ [] ∧
    (heal ex3 = .ok (sortSkeleton ex3) ∧ (sortSkeleton ex3).Perm ex3) := by
  have h1 : Conn (linkEdges ex3) 1 1 := .refl 1
  have h2 : Conn (linkEdges ex3) 1 2 := h1.tail (Or.inl (by decide))
  have h3 : Conn (linkEdges ex3) 1 3 := h2.tail (Or.inl (by decide))
  have hhub : ∀ a ∈ nodeIds ex3, Conn (linkEdges ex3) 1 a := by
    intro a ha
    have hids : nodeIds ex3 = [1, 2, 3] := rfl
    rw [hids] at ha
    simp only [List.mem_cons, List.not_mem_nil, or_false] at ha
    rcases ha with rfl | rfl | rfl
    · exact h1
    · exact h2
    · exact h3
  exact ⟨by decide, by decide, C7_connected_idempotent (by decide) (by decide)
    (fun a ha b hb => (hhub a ha).symm.trans (hhub b hb))⟩

/-- C8: the two-fragment scenario heals to one rooted tree: root id 1,
node 3 relinked to node 2, three link edges, all nodes connected. -/
theorem C8_two_fragment_scenario :
    heal ex8 = .ok ex8out ∧
    countSentinel ex8out = 1 ∧
    (∃ r ∈ ex8out, r.rowId = 1 ∧ r.link = -1) ∧
    linkOf ex8out 3 = 2 ∧
    (linkEdges ex8out).length = 3 ∧
    (∀ a ∈ nodeIds ex8out, ∀ b ∈ nodeIds ex8out,
      Conn (linkEdges ex8out) a b) := by
  have h1 : Conn (linkEdges ex8out) 1 1 := .refl 1
  have h2 : Conn (linkEdges ex8out) 1 2 := h1.tail (Or.inl (by decide))
  have h3 : Conn (linkEdges ex8out) 1 3 := h2.tail (Or.inl (by decide))
  have h4 : Conn (linkEdges ex8out) 1 4 := h3.tail (Or.inl (by decide))
  have hhub : ∀ a ∈ nodeIds ex8out, Conn (linkEdges ex8out) 1 a := by
    intro a ha
    have hids : nodeIds ex8out = [1, 2, 3, 4] := rfl
    rw [hids] at ha
    simp only [List.mem_cons, List.not_mem_nil, or_false] at ha
    rcases ha with rfl | rfl | rfl | rfl
    · exact h1
    · exact h2
    · exact h3
    · exact h4
  exact ⟨by rfl, by decide, by decide, by decide, by decide,
    fun a ha b hb => (hhub a ha).symm.trans (hhub b hb)⟩

/-- C9: heal_skeleton rewrites only the link column: the output rows agree
with the input rows on id, x, y, z and radius, up to the id reordering. -/
theorem C9_frame_only_link {df0 : List Node} (hwf : WellFormed df0) :
    ∀ out, heal df0 = .ok out →
      (out.map geomOf).Perm (df0.map geomOf) ∧
      (∀ r ∈ out, ∃ r0 ∈ df0, r0.rowId = r.rowId ∧ r0.x = r.x ∧
        r0.y = r.y ∧ r0.z = r.z ∧ r0.radius = r.radius) := by
  intro out hout
  have hperm : (out.map geomOf).Perm (df0.map geomOf) := by
    unfold heal at hout
    by_cases hex : earlyExit df0 = true
    · rw [if_pos hex] at hout
      have ho : healDf df0 = out := Except.ok.inj hout
      rw [← ho]
      exact (sortSkeleton_perm df0).map _
    · rw [if_neg hex] at hout
      cases hh : (healDf df0).head? with
      | none =>
        rw [hh] at hout
        have h2 : (Except.error
            "IndexError: single positional indexer is out-of-bounds" :
              Except String (List Node)) = Except.ok out := hout
        exact Except.noConfusion h2
      | some r =>
        rw [hh] at hout
        have h2 : (if ((healOut df0).filter
              (fun r => r.link = -1)).length = 1 ∧
            (((healOut df0).head?.map (fun r => r.link)).getD 0 = -1)
          then Except.ok (healOut df0)
          else Except.error "AssertionError") = Except.ok out := hout
        by_cases hc : ((healOut df0).filter
              (fun r => r.link = -1)).length = 1 ∧
            (((healOut df0).head?.map (fun r => r.link)).getD 0 = -1)
        · rw [if_pos hc] at h2
          have ho : healOut df0 = out := Except.ok.inj h2
          rw [← ho]
          have hmm : (healOut df0).map geomOf = (healDf df0).map geomOf := by
            show ((healDf df0).map _).map geomOf = _
            rw [List.map_map]
            exact List.map_congr_left (fun r _ => rfl)
          rw [hmm]
          exact (sortSkeleton_perm df0).map _
        · rw [if_neg hc] at h2
          exact Except.noConfusion h2
  refine ⟨hperm, ?_⟩
  intro r hr
  have hmem : geomOf r ∈ df0.map geomOf :=
    hperm.subset (List.mem_map_of_mem _ hr)
  rw [List.mem_map] at hmem
  obtain ⟨r0, hr0, hg⟩ := hmem
  unfold geomOf at hg
  rw [Prod.mk.injEq, Prod.mk.injEq, Prod.mk.injEq, Prod.mk.injEq] at hg
  exact ⟨r0, hr0, hg.1, hg.2.1, hg.2.2.1, hg.2.2.2.1, hg.2.2.2.2⟩

/-- C9 witness: the frame property at the two-fragment scenario. -/
theorem C9_frame_only_link_witness :
    WellFormed ex8 ∧
    ((ex8out.map geomOf).Perm (ex8.map geomOf) ∧
      (∀ r ∈ ex8out, ∃ r0 ∈ ex8, r0.rowId = r.rowId ∧ r0.x = r.x ∧
        r0.y = r.y ∧ r0.z = r.z ∧ r0.radius = r.radius)) :=
  ⟨by decide, C9_frame_only_link (by decide) ex8out (by rfl)⟩

/-- C10: the empty skeleton raises: no component exists so the early exit
is never taken, and picking the root from the first row fails with the
positional IndexError. -/
theorem C10_empty_raises :
    heal ([] : List Node) =
      .error "IndexError: single positional indexer is out-of-bounds" ∧
    earlyExit ([] : List Node) = false ∧
    healComps ([] : List Node) = [] :=
  ⟨rfl, rfl, rfl⟩

end NeuPrint
